import Mathlib

/-!
# Verification of pulldown-cmark-writer

A shallow embedding of the `pulldown-cmark-writer` crate: the text
composition primitives (`src/text/*`), the document model and event
re-emission (`src/ast/block.rs`, `src/ast/inline.rs`), the event
reconstruction engine (`src/ast/parse.rs`), the Markdown writer
(`src/ast/writer/*`), and the canonicalization helpers of
`tests/events_roundtrip.rs`, together with theorems settling the
specification claims about them.

Machine integers (`usize`, `u64`) are modelled as `Nat`.  Rust strings
(`String`, `CowStr`, and `Fragment`, an `Arc<str>` with content equality)
are modelled as `List Char` so that every string operation is an
executable structural recursion; `str` converts a Lean string literal.
The `Custom` node variants carry opaque user trait objects (`Arc<dyn
InlineNode>` / `Arc<dyn BlockNode>`) and are outside the embedding; all
other variants are translated faithfully.
-/

set_option maxHeartbeats 1000000

namespace PCW

/-! ## String model -/

/-- A Rust string, as its character sequence. -/
abbrev Str := List Char

/-- A string literal of the source, as a `Str`. -/
def str (s : String) : Str := s.toList

/-- Rust `str::split(sep)` for a one-char separator: always at least one
(possibly empty) part. -/
def splitChar (sep : Char) : Str → List Str
  | [] => [[]]
  | c :: rest =>
      if c = sep then [] :: splitChar sep rest
      else
        match splitChar sep rest with
        | part :: parts => (c :: part) :: parts
        | [] => [[c]]

/-- Join parts with a separator (Rust's joining counterpart of `split`). -/
def joinSep (sep : Str) : List Str → Str
  | [] => []
  | [p] => p
  | p :: rest => p ++ sep ++ joinSep sep rest

/-- Rust `str::ends_with(c)` for a one-char pattern. -/
def endsWith (s : Str) (c : Char) : Bool := s.getLast? == some c

/-- Rust `s.trim().is_empty()`: every char is whitespace. -/
def trimIsEmpty (s : Str) : Bool := s.all (·.isWhitespace)

/-- Rust `str::replace` for a one-char pattern. -/
def replaceChar (s : Str) (c : Char) (repl : Str) : Str :=
  s.flatMap fun ch => if ch = c then repl else [ch]

/-- The digits of `n` (Rust `format!("{}", n)`). -/
def natDigits (n : Nat) : Str := Nat.toDigits 10 n

/-! ## Event vocabulary (pulldown-cmark types as used by this crate) -/

inductive HeadingLevel
  | h1 | h2 | h3 | h4 | h5 | h6
  deriving DecidableEq, Repr

inductive Alignment
  | none | left | center | right
  deriving DecidableEq, Repr

inductive LinkType
  | inline | reference | referenceUnknown | collapsed | collapsedUnknown
  | shortcut | shortcutUnknown | autolink | email
  deriving DecidableEq, Repr

inductive CodeBlockKind
  | indented
  | fenced (lang : Str)
  deriving DecidableEq, Repr

inductive BlockQuoteKind
  | note | tip | important | warning | caution
  deriving DecidableEq, Repr

inductive MetadataBlockKind
  | yamlStyle | plusesStyle
  deriving DecidableEq, Repr

inductive Tag
  | paragraph
  | heading (level : HeadingLevel) (id : Option Str) (classes : List Str)
      (attrs : List (Str × Option Str))
  | blockQuote (kind : Option BlockQuoteKind)
  | codeBlock (kind : CodeBlockKind)
  | htmlBlock
  | list (start : Option Nat)
  | item
  | footnoteDefinition (label : Str)
  | definitionList
  | definitionListTitle
  | definitionListDefinition
  | table (alignments : List Alignment)
  | tableHead
  | tableRow
  | tableCell
  | emphasis
  | strong
  | strikethrough
  | subscript
  | superscript
  | link (linkType : LinkType) (destUrl : Str) (title : Str) (id : Str)
  | image (linkType : LinkType) (destUrl : Str) (title : Str) (id : Str)
  | metadataBlock (kind : MetadataBlockKind)
  deriving DecidableEq, Repr

inductive TagEnd
  | paragraph
  | heading (level : HeadingLevel)
  | blockQuote (kind : Option BlockQuoteKind)
  | codeBlock
  | htmlBlock
  | list (ordered : Bool)
  | item
  | footnoteDefinition
  | definitionList
  | definitionListTitle
  | definitionListDefinition
  | table
  | tableHead
  | tableRow
  | tableCell
  | emphasis
  | strong
  | strikethrough
  | subscript
  | superscript
  | link
  | image
  | metadataBlock (kind : MetadataBlockKind)
  deriving DecidableEq, Repr

inductive Event
  | start (tag : Tag)
  | endTag (tag : TagEnd)
  | text (s : Str)
  | code (s : Str)
  | inlineHtml (s : Str)
  | html (s : Str)
  | footnoteReference (s : Str)
  | softBreak
  | hardBreak
  | rule
  | taskListMarker (checked : Bool)
  | inlineMath (s : Str)
  | displayMath (s : Str)
  deriving DecidableEq, Repr

/-! ## Text composition primitives (`src/text`) -/

/-- `Line` (src/text/line.rs): an ordered sequence of fragments. -/
structure Line where
  fragments : List Str
  deriving DecidableEq, Repr

namespace Line

def new : Line := ⟨[]⟩

/-- `Line::from_str`: a line holding a single fragment. -/
def from_str (s : Str) : Line := ⟨[s]⟩

/-- `Line::push`: append a fragment. -/
def push (l : Line) (f : Str) : Line := ⟨l.fragments ++ [f]⟩

/-- `Line::prepend`: insert a fragment at the front. -/
def prepend (l : Line) (f : Str) : Line := ⟨f :: l.fragments⟩

/-- `Line::apply`: concatenate all fragments. -/
def apply (l : Line) : Str := l.fragments.flatten

end Line

/-- `Region` (src/text/region.rs): main lines plus deferred suffix lines. -/
structure Region where
  lines : List Line
  suffix : List Line
  deriving DecidableEq, Repr

namespace Region

def new : Region := ⟨[], []⟩

/-- `Region::from_str`: split on `'\n'`; the empty string gives no lines. -/
def from_str (s : Str) : Region :=
  if s.isEmpty then ⟨[], []⟩
  else ⟨(splitChar '\n' s).map Line.from_str, []⟩

def push_front_line (r : Region) (l : Line) : Region := ⟨l :: r.lines, r.suffix⟩

def push_back_line (r : Region) (l : Line) : Region := ⟨r.lines ++ [l], r.suffix⟩

def push_back_suffix_line (r : Region) (l : Line) : Region := ⟨r.lines, r.suffix ++ [l]⟩

/-- `Region::prefix_each_line`: prepend a fragment to every main and suffix line. -/
def prefix_each_line (r : Region) (p : Str) : Region :=
  ⟨r.lines.map (·.prepend p), r.suffix.map (·.prepend p)⟩

/-- `Fragment::spaces`: a fragment of `n` spaces. -/
def spaces (n : Nat) : Str := List.replicate n ' '

/-- `Region::indent_each_line`: prepend `n` spaces to every line (no-op for 0). -/
def indent_each_line (r : Region) (n : Nat) : Region :=
  if n = 0 then r
  else ⟨r.lines.map (·.prepend (spaces n)), r.suffix.map (·.prepend (spaces n))⟩

/-- `Region::prefix_first_then_indent_rest`: prefix the first main line
(falling back to the first suffix line when there are no main lines); when the
prefix has positive char length (`Fragment::len`), indent every main line but
the first and every suffix line by that many spaces. -/
def prefix_first_then_indent_rest (r : Region) (p : Str) : Region :=
  let pad := p.length
  let r1 : Region :=
    match r.lines with
    | l :: rest => ⟨l.prepend p :: rest, r.suffix⟩
    | [] =>
        match r.suffix with
        | s :: srest => ⟨[], s.prepend p :: srest⟩
        | [] => r
  if pad = 0 then r1
  else
    let lines' :=
      match r1.lines with
      | l :: rest => l :: rest.map (·.prepend (spaces pad))
      | [] => []
    ⟨lines', r1.suffix.map (·.prepend (spaces pad))⟩

/-- `Region::apply`: join all main then suffix lines with `'\n'`. -/
def apply (r : Region) : Str :=
  joinSep ['\n'] ((r.lines ++ r.suffix).map Line.apply)

def is_empty (r : Region) : Bool := r.lines.isEmpty && r.suffix.isEmpty

/-- `Region::into_lines`: main lines followed by suffix lines. -/
def into_lines (r : Region) : List Line := r.lines ++ r.suffix

end Region

/-! ## Document model (`src/ast/inline.rs`, `src/ast/block.rs`)

The `Custom` variants carry `Arc<dyn InlineNode>` / `Arc<dyn BlockNode>`
trait objects (opaque user code) and are not part of the embedding.
-/

mutual

inductive Inline
  | text (r : Region)
  | code (r : Region)
  | inlineHtml (r : Region)
  | html (r : Region)
  | softBreak
  | hardBreak
  | emphasis (children : List Inline)
  | strong (children : List Inline)
  | strikethrough (children : List Inline)
  | subscript (children : List Inline)
  | superscript (children : List Inline)
  | link (linkType : LinkType) (dest : Str) (title : Str) (id : Str)
      (children : List Inline)
  | image (linkType : LinkType) (dest : Str) (title : Str) (id : Str)
      (children : List Inline)
  | footnoteReference (s : Str)
  | inlineMath (r : Region)
  | displayMath (r : Region)
  deriving Repr

inductive Block
  | paragraph (children : List Inline)
  | heading (level : HeadingLevel) (id : Option Str) (classes : List Str)
      (attrs : List (Str × Option Str)) (children : List Inline)
  | blockQuote (children : List Block)
  | codeBlock (kind : CodeBlockKind) (content : Region)
  | htmlBlock (r : Region)
  | list (start : Option Nat) (items : List (List Block))
  | item (children : List Block)
  | rule
  | footnoteDefinition (label : Str) (children : List Block)
  | table (alignments : List Alignment)
  | tableRow (cells : List (List Inline))
  | tableFull (alignments : List Alignment) (rows : List (List (List Inline)))
  deriving Repr

end

/-! ## Event re-emission (`inline_to_events`, `block_to_events`) -/

/-- Text events for the parts of a split string, `SoftBreak` between parts
(the `Inline::Text` arm of `inline_to_events`). -/
def textParts : List Str → List Event
  | [] => []
  | [p] => [.text p]
  | p :: rest => .text p :: .softBreak :: textParts rest

mutual

/-- `inline_to_events` (src/ast/inline.rs): convert an `Inline` to events.
`Text` splits its applied string on `'\n'`, interleaving `SoftBreak`s. -/
def inline_to_events : Inline → List Event
  | .text r => textParts (splitChar '\n' r.apply)
  | .code r => [.code r.apply]
  | .inlineHtml r => [.inlineHtml r.apply]
  | .html r => [.html r.apply]
  | .softBreak => [.softBreak]
  | .hardBreak => [.hardBreak]
  | .emphasis children =>
      .start .emphasis :: inlines_to_events children ++ [.endTag .emphasis]
  | .strong children =>
      .start .strong :: inlines_to_events children ++ [.endTag .strong]
  | .strikethrough children =>
      .start .strikethrough :: inlines_to_events children ++ [.endTag .strikethrough]
  | .subscript children =>
      .start .subscript :: inlines_to_events children ++ [.endTag .subscript]
  | .superscript children =>
      .start .superscript :: inlines_to_events children ++ [.endTag .superscript]
  | .link lt dest title id children =>
      .start (.link lt dest title id) :: inlines_to_events children ++ [.endTag .link]
  | .image lt dest title id children =>
      .start (.image lt dest title id) :: inlines_to_events children ++ [.endTag .image]
  | .footnoteReference s => [.footnoteReference s]
  | .inlineMath r => [.inlineMath r.apply]
  | .displayMath r => [.displayMath r.apply]

def inlines_to_events : List Inline → List Event
  | [] => []
  | i :: rest => inline_to_events i ++ inlines_to_events rest

end

mutual

/-- `block_to_events` (src/ast/block.rs): convert a `Block` to events.
A heading's classes and attrs are dropped; `Table`, `TableRow` and
`TableFull` emit no events. -/
def block_to_events : Block → List Event
  | .paragraph children =>
      .start .paragraph :: inlines_to_events children ++ [.endTag .paragraph]
  | .heading level id _classes _attrs children =>
      .start (.heading level id [] []) :: inlines_to_events children
        ++ [.endTag (.heading level)]
  | .blockQuote children =>
      .start (.blockQuote none) :: blocks_to_events children
        ++ [.endTag (.blockQuote none)]
  | .codeBlock kind content =>
      [.start (.codeBlock kind), .text content.apply, .endTag .codeBlock]
  | .htmlBlock r => [.html r.apply]
  | .list start items =>
      .start (.list start) :: items_to_events items ++ [.endTag (.list start.isSome)]
  | .item children =>
      .start .item :: blocks_to_events children ++ [.endTag .item]
  | .rule => [.rule]
  | .footnoteDefinition label children =>
      .start (.footnoteDefinition label) :: blocks_to_events children
        ++ [.endTag .footnoteDefinition]
  | .table _ => []
  | .tableRow _ => []
  | .tableFull _ _ => []

def blocks_to_events : List Block → List Event
  | [] => []
  | b :: rest => block_to_events b ++ blocks_to_events rest

def items_to_events : List (List Block) → List Event
  | [] => []
  | item :: rest =>
      .start .item :: blocks_to_events item ++ [.endTag .item] ++ items_to_events rest

end

/-! ## Event reconstruction engine (`src/ast/parse.rs`) -/

/-- A stack frame of `parse_events_to_blocks_with_hook`. -/
structure Frame where
  tag : Tag
  inlines : List Inline
  blocks : List Block
  collect_inlines : Bool
  deriving Repr

/-- Machine state: frame stack (head = top) and root output. -/
structure State where
  stack : List Frame
  out : List Block
  deriving Repr

/-- The fixed classification: which tags collect inline children. -/
def tagCollectsInlines : Tag → Bool
  | .paragraph | .heading .. | .emphasis | .strong | .strikethrough
  | .subscript | .superscript | .link .. | .image .. | .tableCell => true
  | _ => false

/-- Code-block content on `End`: concatenate the `Text` inlines of the
`Paragraph` children collected in the frame's block buffer. -/
def codeBlockText (bs : List Block) : Str :=
  (bs.map fun b =>
    match b with
    | .paragraph inls =>
        (inls.map fun i =>
          match i with
          | .text r => r.apply
          | _ => []).flatten
    | _ => []).flatten

/-- Html-block content lines contributed by a block child on `End`. -/
def htmlLinesOfBlock : Block → List Line
  | .htmlBlock rgn => (splitChar '\n' rgn.apply).map Line.from_str
  | .paragraph inls =>
      inls.filterMap fun i =>
        match i with
        | .text r => some (Line.from_str r.apply)
        | _ => none
  | _ => []

/-- Html-block content lines contributed by an inline child on `End`. -/
def htmlLinesOfInline : Inline → List Line
  | .text r => [Line.from_str r.apply]
  | .html r => (splitChar '\n' r.apply).map Line.from_str
  | _ => []

/-- `List` end: regroup children, unwrapping `Item` frames into item block
sequences and wrapping any other child as a singleton item. -/
def listItems (bs : List Block) : List (List Block) :=
  bs.map fun b =>
    match b with
    | .item children => children
    | other => [other]

/-- `Table` end: interpret child blocks as rows. -/
def tableRowsOfBlocks (bs : List Block) : List (List (List Inline)) :=
  bs.filterMap fun b =>
    match b with
    | .tableRow cells => some cells
    | .paragraph inls => some [inls]
    | .item children =>
        some [children.flatMap fun ch =>
          match ch with
          | .paragraph inls => inls
          | _ => []]
    | _ => none

/-- `TableHead`/`TableRow` end: child `Paragraph`s become the row's cells. -/
def tableCellsOfBlocks (bs : List Block) : List (List Inline) :=
  bs.filterMap fun b =>
    match b with
    | .paragraph inls => some inls
    | _ => none

/-- The per-tag conversion of a popped frame into a `Block` and, for
span-level tags, an `Inline` (the `maybe_inline` of the source). -/
def endFrameNode (f : Frame) : Block × Option Inline :=
  match f.tag with
  | .paragraph => (.paragraph f.inlines, none)
  | .heading level id classes attrs =>
      (.heading level id classes attrs f.inlines, none)
  | .blockQuote _ => (.blockQuote f.blocks, none)
  | .codeBlock kind =>
      (.codeBlock kind (Region.from_str (codeBlockText f.blocks)), none)
  | .htmlBlock =>
      (.htmlBlock ⟨f.blocks.flatMap htmlLinesOfBlock ++ f.inlines.flatMap htmlLinesOfInline, []⟩,
        none)
  | .list start => (.list start (listItems f.blocks), none)
  | .item => (.item f.blocks, none)
  | .footnoteDefinition label => (.footnoteDefinition label f.blocks, none)
  | .table aligns => (.tableFull aligns (tableRowsOfBlocks f.blocks), none)
  | .tableHead => (.tableRow (tableCellsOfBlocks f.blocks), none)
  | .tableRow => (.tableRow (tableCellsOfBlocks f.blocks), none)
  | .tableCell => (.paragraph f.inlines, none)
  | .emphasis => (.paragraph [], some (.emphasis f.inlines))
  | .strong => (.paragraph [], some (.strong f.inlines))
  | .strikethrough => (.paragraph [], some (.strikethrough f.inlines))
  | .subscript => (.paragraph [], some (.subscript f.inlines))
  | .superscript => (.paragraph [], some (.superscript f.inlines))
  | .link lt dest title id => (.paragraph [], some (.link lt dest title id f.inlines))
  | .image lt dest title id => (.paragraph [], some (.image lt dest title id f.inlines))
  | .metadataBlock _ => (.paragraph f.inlines, none)
  | _ => (.paragraph f.inlines, none)

/-- Append an inline into a block list: into the trailing `Paragraph` when
there is one, otherwise as a fresh singleton `Paragraph`. -/
def pushInlineToBlocks (bs : List Block) (inl : Inline) : List Block :=
  match bs.getLast? with
  | some (.paragraph inls) => bs.dropLast ++ [.paragraph (inls ++ [inl])]
  | some _ => bs ++ [.paragraph [inl]]
  | none => bs ++ [.paragraph [inl]]

/-- Placement of the converted node after popping a frame (`End` handling). -/
def placeEnd (node : Block) (mi : Option Inline) (rest : List Frame)
    (out : List Block) : State :=
  match rest with
  | parent :: below =>
      match mi with
      | some inl =>
          if parent.collect_inlines then
            ⟨{ parent with inlines := parent.inlines ++ [inl] } :: below, out⟩
          else
            ⟨{ parent with blocks := pushInlineToBlocks parent.blocks inl } :: below, out⟩
      | none =>
          if parent.collect_inlines then
            match node with
            | .paragraph inls =>
                ⟨{ parent with inlines := parent.inlines ++ inls } :: below, out⟩
            | other =>
                ⟨{ parent with blocks := parent.blocks ++ [other] } :: below, out⟩
          else
            ⟨{ parent with blocks := parent.blocks ++ [node] } :: below, out⟩
  | [] =>
      match mi with
      | some inl => ⟨[], out ++ [.paragraph [inl]]⟩
      | none => ⟨[], out ++ [node]⟩

/-- Dispatch of a leaf inline: to the top frame's inline buffer when it
collects inlines, else wrapped into its block buffer, else to the root. -/
def placeLeafPerFlag (s : State) (inl : Inline) : State :=
  match s.stack with
  | top :: below =>
      if top.collect_inlines then
        ⟨{ top with inlines := top.inlines ++ [inl] } :: below, s.out⟩
      else
        ⟨{ top with blocks := top.blocks ++ [.paragraph [inl]] } :: below, s.out⟩
  | [] => ⟨[], s.out ++ [.paragraph [inl]]⟩

/-- Dispatch of a leaf inline that always goes to the inline buffer when a
frame is open (`InlineHtml`, `TaskListMarker`, `FootnoteReference`,
`InlineMath`, `DisplayMath` in the source). -/
def placeLeafInline (s : State) (inl : Inline) : State :=
  match s.stack with
  | top :: below => ⟨{ top with inlines := top.inlines ++ [inl] } :: below, s.out⟩
  | [] => ⟨[], s.out ++ [.paragraph [inl]]⟩

/-- One iteration of the event loop of `parse_events_to_blocks_with_hook`
when no hook intercepts the event. -/
def parseStep (s : State) (e : Event) : State :=
  match e with
  | .start tag =>
      ⟨⟨tag, [], [], tagCollectsInlines tag⟩ :: s.stack, s.out⟩
  | .endTag _ =>
      match s.stack with
      | [] => s
      | f :: rest =>
          let (node, mi) := endFrameNode f
          placeEnd node mi rest s.out
  | .text t => placeLeafPerFlag s (.text (Region.from_str t))
  | .code t => placeLeafPerFlag s (.code (Region.from_str t))
  | .inlineHtml t => placeLeafInline s (.inlineHtml (Region.from_str t))
  | .html t =>
      match s.stack with
      | top :: below =>
          if top.collect_inlines then
            ⟨{ top with inlines := top.inlines ++ [.html (Region.from_str t)] } :: below, s.out⟩
          else
            ⟨{ top with blocks := top.blocks ++ [.htmlBlock (Region.from_str t)] } :: below, s.out⟩
      | [] => ⟨[], s.out ++ [.htmlBlock (Region.from_str t)]⟩
  | .softBreak => placeLeafPerFlag s .softBreak
  | .hardBreak => placeLeafPerFlag s .hardBreak
  | .rule =>
      match s.stack with
      | top :: below => ⟨{ top with blocks := top.blocks ++ [.rule] } :: below, s.out⟩
      | [] => ⟨[], s.out ++ [.rule]⟩
  | .taskListMarker b =>
      placeLeafInline s (.text (Region.from_str (if b then str "[x]" else str "[ ]")))
  | .footnoteReference t => placeLeafInline s (.footnoteReference t)
  | .inlineMath t => placeLeafInline s (.inlineMath (Region.from_str t))
  | .displayMath t => placeLeafInline s (.displayMath (Region.from_str t))

/-- `parse_events_to_blocks` (the hookless entry point): run the event loop
from the empty state and return the root output, dropping unclosed frames. -/
def parse_events_to_blocks (evts : List Event) : List Block :=
  (evts.foldl parseStep ⟨[], []⟩).out

/-! ### The hook variant -/

/-- `ParseContext` (src/ast/mod.rs): read-only snapshot handed to hooks. -/
structure ParseContext where
  depth : Nat
  parent_tag : Option Tag
  parent_collects_inlines : Bool
  event_index : Nat

/-- The hook signature: remaining events, absolute index, context. -/
def Hook : Type :=
  List Event → Nat → ParseContext → Option (Nat × Block)

/-- The context built at the top of each loop iteration. -/
def mkContext (s : State) (i : Nat) : ParseContext :=
  { depth := s.stack.length
    parent_tag := s.stack.head?.map (·.tag)
    parent_collects_inlines := ((s.stack.head?.map (·.collect_inlines)).getD false)
    event_index := i }

/-- `parse_events_to_blocks_with_hook`, fuelled: the Rust `while i < len`
loop is not structurally recursive (a hook may consume 0 events), so each
iteration spends one unit of fuel; `none` means the loop has not finished
within the given fuel.  When the hook fires, the produced block is pushed
onto the root output `out` and the cursor advances by `consumed`
(`saturating_add`, which on `Nat` is plain addition). -/
def parse_with_hook_fuel (h : Hook) :
    Nat → List Event → Nat → State → Option (List Block)
  | 0, _, _, _ => none
  | fuel + 1, evts, i, s =>
      if hlt : i < evts.length then
        match h (evts.drop i) i (mkContext s i) with
        | some (consumed, blk) =>
            parse_with_hook_fuel h fuel evts (i + consumed)
              { s with out := s.out ++ [blk] }
        | none =>
            parse_with_hook_fuel h fuel evts (i + 1) (parseStep s evts[i])
      else some s.out

/-! ## Markdown writer (`src/ast/writer`) -/

/-- Unicode display width.  Modelled from the spec: the spec places
"Unicode display-width computation (an external utility function)" out of
scope; it is modelled as the char count, which is exact for the ASCII
strings appearing in the claims. -/
def displayWidth (s : Str) : Nat := s.length

/-- `pad_to_width` (src/ast/writer/utils.rs). -/
def pad_to_width (s : Str) (width : Nat) (align : Option Alignment) : Str :=
  let w := displayWidth s
  if width ≤ w then s
  else
    let pad := width - w
    match align with
    | some .left => s ++ Region.spaces pad
    | some .none => s ++ Region.spaces pad
    | some .right => Region.spaces pad ++ s
    | some .center => Region.spaces (pad / 2) ++ s ++ Region.spaces (pad - pad / 2)
    | none => s ++ Region.spaces pad

/-- Push the `'\n'`-split parts of a text run onto a line, interleaving
explicit `"\n"` fragments (the `Inline::Text` arm of `append_inline_to_line`). -/
def pushTextParts (line : Line) : List Str → Line
  | [] => line
  | [p] => line.push p
  | p :: rest => pushTextParts ((line.push p).push ['\n']) rest

mutual

/-- `append_inline_to_line` (src/ast/writer/inline.rs): append the rendering
of one inline to a line; reference/shortcut/collapsed links and images with a
non-empty id also return a deferred `(id, dest, title)` definition. -/
def append_inline_to_line : Line → Inline → Line × Option (Str × Str × Str)
  | line, .text r => (pushTextParts line (splitChar '\n' r.apply), none)
  | line, .code r =>
      let s := r.apply
      let ticks := if s.contains '`' then str "``" else str "`"
      (line.push (ticks ++ s ++ ticks), none)
  | line, .inlineHtml r => (line.push r.apply, none)
  | line, .html r => (line.push r.apply, none)
  | line, .softBreak => (line.push (str " "), none)
  | line, .hardBreak => (line.push (str "  \n"), none)
  | line, .emphasis children =>
      ((append_inlines_discard (line.push (str "*")) children).push (str "*"), none)
  | line, .strong children =>
      ((append_inlines_discard (line.push (str "**")) children).push (str "**"), none)
  | line, .strikethrough children =>
      ((append_inlines_discard (line.push (str "~~")) children).push (str "~~"), none)
  | line, .subscript children =>
      ((append_inlines_discard (line.push (str "~\x7b")) children).push (str "\x7d"), none)
  | line, .superscript children =>
      ((append_inlines_discard (line.push (str "^\x7b")) children).push (str "\x7d"), none)
  | line, .link lt dest title id children =>
      let inner := inner_of_inlines children
      if lt = LinkType.reference ∧ ¬ id.isEmpty then
        (line.push (str "[" ++ inner ++ str "][" ++ id ++ str "]"), some (id, dest, title))
      else if lt = LinkType.autolink ∨ lt = LinkType.email then
        (line.push (str "<" ++ dest ++ str ">"), none)
      else if (lt = LinkType.shortcut ∨ lt = LinkType.collapsed) ∧ ¬ id.isEmpty then
        (line.push (str "[" ++ inner ++ str "]"), some (id, dest, title))
      else
        let safe_dest :=
          replaceChar (replaceChar (replaceChar dest '\\' (str "\\\\")) ')' (str "\\)"))
            '(' (str "\\(")
        if title.isEmpty then
          (line.push (str "[" ++ inner ++ str "](" ++ safe_dest ++ str ")"), none)
        else
          let safe_title := replaceChar (replaceChar title '\\' (str "\\\\")) '"' (str "\\\"")
          (line.push (str "[" ++ inner ++ str "](" ++ safe_dest ++ str " \"" ++ safe_title
            ++ str "\")"), none)
  | line, .image lt dest title id children =>
      let inner := inner_of_inlines children
      if lt = LinkType.reference ∧ ¬ id.isEmpty then
        (line.push (str "![" ++ inner ++ str "][" ++ id ++ str "]"), some (id, dest, title))
      else if (lt = LinkType.shortcut ∨ lt = LinkType.collapsed) ∧ ¬ id.isEmpty then
        (line.push (str "![" ++ inner ++ str "]"), some (id, dest, title))
      else if title.isEmpty then
        (line.push (str "![" ++ inner ++ str "](" ++ dest ++ str ")"), none)
      else
        (line.push (str "![" ++ inner ++ str "](" ++ dest ++ str " \"" ++ title ++ str "\")"),
          none)
  | line, .footnoteReference s => (line.push (str "[^" ++ s ++ str "]"), none)
  | line, .inlineMath r => (line.push (str "$" ++ r.apply ++ str "$"), none)
  | line, .displayMath r =>
      (((line.push (str "\n$$\n")).push r.apply).push (str "\n$$\n"), none)

/-- Append several inlines, dropping any returned definitions (the child
loops of the emphasis-family arms). -/
def append_inlines_discard : Line → List Inline → Line
  | line, [] => line
  | line, c :: rest => append_inlines_discard (append_inline_to_line line c).1 rest

/-- The `inner` string of a link/image: children each rendered into a fresh
line and concatenated. -/
def inner_of_inlines : List Inline → Str
  | [] => []
  | c :: rest => ((append_inline_to_line Line.new c).1).apply ++ inner_of_inlines rest

end

/-- The `[id]: dest "title"` definition line text of `render_paragraph`. -/
def fmtDef (d : Str × Str × Str) : Str :=
  if d.2.2.isEmpty then str "[" ++ d.1 ++ str "]: " ++ d.2.1
  else str "[" ++ d.1 ++ str "]: " ++ d.2.1 ++ str " \"" ++ d.2.2 ++ str "\""

/-- The inner `while let Some(part) = parts.next()` loop of
`render_paragraph`: non-empty parts are pushed to the current line, and every
part except the last flushes the current line. -/
def paraPushParts : Region → Line → List Str → Region × Line
  | r, curr, [] => (r, curr)
  | r, curr, [p] => (r, if p.isEmpty then curr else curr.push p)
  | r, curr, p :: rest =>
      paraPushParts (r.push_back_line (if p.isEmpty then curr else curr.push p))
        Line.new rest

/-- Record one returned definition into the `defs` vector of
`render_paragraph`: skipped when its id is already present. -/
def dedupStep (defs : List (Str × Str × Str)) (d : Str × Str × Str) :
    List (Str × Str × Str) :=
  if defs.any (fun e => e.1 = d.1) then defs else defs ++ [d]

/-- The catch-all arm of the `render_paragraph` loop: render the inline
into a fresh line, record a returned definition, and push the split parts. -/
def paraOther (st : Region × List (Str × Str × Str) × Line) (inl : Inline) :
    Region × List (Str × Str × Str) × Line :=
  ((paraPushParts st.1 st.2.2
      (splitChar '\n' ((append_inline_to_line Line.new inl).1).apply)).1,
   (match (append_inline_to_line Line.new inl).2 with
    | some d => dedupStep st.2.1 d
    | none => st.2.1),
   (paraPushParts st.1 st.2.2
      (splitChar '\n' ((append_inline_to_line Line.new inl).1).apply)).2)

/-- One inline of the `render_paragraph` loop: state is the region built so
far, the recorded definitions, and the current line. -/
def paraStep (st : Region × List (Str × Str × Str) × Line) (inl : Inline) :
    Region × List (Str × Str × Str) × Line :=
  match inl with
  | .softBreak => (st.1.push_back_line st.2.2, st.2.1, Line.new)
  | .hardBreak => (st.1.push_back_line (st.2.2.push (str "  ")), st.2.1, Line.new)
  | _ => paraOther st inl

/-- `render_paragraph` (src/ast/writer/blocks.rs): lay inline children out
into lines, record deduplicated reference definitions (first occurrence
wins), and append them as suffix lines after a blank separator. -/
def render_paragraph (p : List Inline) : Region :=
  let st := p.foldl paraStep (Region.new, [], Line.new)
  let r := st.1.push_back_line st.2.2
  let defs := st.2.1
  let r := if ¬ defs.isEmpty ∧ ¬ r.is_empty then r.push_back_line (Line.from_str []) else r
  defs.foldl (fun r d => r.push_back_suffix_line (Line.from_str (fmtDef d))) r

def headingLevelNat : HeadingLevel → Nat
  | .h1 => 1 | .h2 => 2 | .h3 => 3 | .h4 => 4 | .h5 => 5 | .h6 => 6

/-- `render_heading`: `#`×level, a space, then the flattened inline content. -/
def render_heading (level : HeadingLevel) (content : List Inline) : Region :=
  let l := (Line.new.push (List.replicate (headingLevelNat level) '#')).push (str " ")
  Region.new.push_back_line (append_inlines_discard l content)

/-- One char of the backtick-run scan of `render_codeblock`: the state is
`(max_ticks, cur)`. -/
def tickStep (acc : Nat × Nat) (ch : Char) : Nat × Nat :=
  if ch = '`' then
    let cur := acc.2 + 1
    (if acc.1 < cur then cur else acc.1, cur)
  else (acc.1, 0)

/-- The longest run of consecutive backticks in a string (the char loop of
`render_codeblock`). -/
def maxTickRun (s : Str) : Nat := (s.foldl tickStep (0, 0)).1

/-- Rust `str::lines()`: split on `'\n'`, dropping a final empty segment. -/
def rustLines (s : Str) : List Str :=
  if s.isEmpty then []
  else
    let parts := splitChar '\n' s
    if parts.getLast? = some [] then parts.dropLast else parts

def dashes (n : Nat) : Str := List.replicate n '-'

def backticks (n : Nat) : Str := List.replicate n '`'

/-- `render_codeblock`: fenced blocks compute the fence as
`max(3, longest backtick run + 1)` backticks, the opening fence carrying the
language tag; indented blocks indent the content by four spaces. -/
def render_codeblock (kind : CodeBlockKind) (content : Region) : Region :=
  match kind with
  | .fenced lang =>
      let content_str := content.apply
      let ticks := max 3 (maxTickRun content_str + 1)
      let fence := backticks ticks ++ lang
      ⟨Line.from_str fence ::
        (rustLines content_str).map Line.from_str ++ [Line.from_str (backticks ticks)], []⟩
  | .indented =>
      let inner := (Region.from_str content.apply).indent_each_line 4
      ⟨inner.into_lines, []⟩

def render_rule : Region := Region.new.push_back_line (Line.from_str (str "---"))

/-- Append a list of lines to a region (the `for l in br.into_lines()` loops). -/
def pushAllLines (r : Region) (ls : List Line) : Region :=
  ls.foldl Region.push_back_line r

/-- The children of a `Paragraph` block, if it is one (used by the
paragraph-merging loop of `render_list`). -/
def paragraphChildren : Block → Option (List Inline)
  | .paragraph inls => some inls
  | .heading .. => none
  | .blockQuote .. => none
  | .codeBlock .. => none
  | .htmlBlock .. => none
  | .list .. => none
  | .item .. => none
  | .rule => none
  | .footnoteDefinition .. => none
  | .table .. => none
  | .tableRow .. => none
  | .tableFull .. => none

mutual

/-- Merge consecutive `Paragraph` children of a list item (`render_list`). -/
def merge_paragraphs : List Block → List Block
  | [] => []
  | b :: rest =>
      match paragraphChildren b with
      | some inls => merge_para_run inls rest
      | none => b :: merge_paragraphs rest

/-- A run of consecutive paragraphs being merged into one. -/
def merge_para_run (acc : List Inline) : List Block → List Block
  | [] => [.paragraph acc]
  | b :: rest =>
      match paragraphChildren b with
      | some inls => merge_para_run (acc ++ inls) rest
      | none => .paragraph acc :: b :: merge_paragraphs rest

end

/-- Flatten a table cell to its physical lines (`cell_to_lines`). -/
def cell_to_lines (cell : List Inline) : List Str :=
  splitChar '\n' (append_inlines_discard Line.new cell).apply

/-- Column count of `render_table_full`: the larger of the declared
alignment count and the widest row. -/
def table_cols (aligns : List Alignment) (rows : List (List (List Inline))) : Nat :=
  max aligns.length ((rows.map List.length).foldr max 0)

/-- `cells_text` of `render_table_full`: each row padded to `cols` cells,
each cell flattened to its lines (missing cells become one empty line). -/
def table_cells_text (cols : Nat) (rows : List (List (List Inline))) :
    List (List (List Str)) :=
  rows.map (fun r =>
    (List.range cols).map (fun c =>
      match r.get? c with
      | some cell => cell_to_lines cell
      | none => [[]]))

/-- `col_widths` of `render_table_full`: per column, the maximal display
width over all cell lines of all rows (header included). -/
def table_col_widths (cols : Nat) (cells_text : List (List (List Str))) :
    List Nat :=
  (List.range cols).map (fun c =>
    (cells_text.map (fun row =>
      (((row.getD c [[]]).map displayWidth).foldr max 0))).foldr max 0)

/-- A header or body row line of `render_table_full`: cells joined with
`" | "`, each cell's lines joined with `"\n"` and padded to the column
width under the column's alignment. -/
def table_cell_line (cols : Nat) (col_widths : List Nat) (aligns : List Alignment)
    (cells : List (List Str)) : Line :=
  (List.range cols).foldl
    (fun l c =>
      let l := if 0 < c then l.push (str " | ") else l
      l.push (pad_to_width (joinSep ['\n'] (cells.getD c [[]]))
        (col_widths.getD c 0) (aligns.get? c)))
    Line.new

/-- The separator line of `render_table_full`: `:--`, `--:`, `:-:` or plain
dashes per column, padded to the column width. -/
def table_sep_line (cols : Nat) (col_widths : List Nat) (aligns : List Alignment) :
    Line :=
  (List.range cols).foldl
    (fun l c =>
      let l := if 0 < c then l.push (str " | ") else l
      let w := col_widths.getD c 0
      match aligns.get? c with
      | some .left => l.push (pad_to_width (':' :: dashes (w - 1)) w none)
      | some .right => l.push (pad_to_width (dashes (w - 1) ++ [':']) w none)
      | some .center => l.push (pad_to_width (':' :: dashes (w - 2) ++ [':']) w none)
      | _ => l.push (dashes w))
    Line.new

/-- `render_table_full`: header row first, then the alignment separator row,
then the body rows. -/
def render_table_full (aligns : List Alignment) (rows : List (List (List Inline))) :
    Region :=
  let cols := table_cols aligns rows
  let cells_text := table_cells_text cols rows
  let col_widths := table_col_widths cols cells_text
  match cells_text with
  | [] => Region.new
  | header :: body =>
      ⟨table_cell_line cols col_widths aligns header ::
        table_sep_line cols col_widths aligns ::
        body.map (table_cell_line cols col_widths aligns), []⟩

/-! ### Termination measure for the block writer

`render_list` re-renders merged paragraphs, which are not subterms; the
weight counts non-paragraph nesting only, and paragraph merging does not
increase it. -/

mutual

def bweight : Block → Nat
  | .paragraph _ => 1
  | .heading .. => 1
  | .blockQuote children => 3 + lweight children
  | .codeBlock .. => 1
  | .htmlBlock _ => 1
  | .list _ items => 1 + iweight items
  | .item _ => 1
  | .rule => 1
  | .footnoteDefinition _ children => 3 + lweight children
  | .table _ => 1
  | .tableRow _ => 1
  | .tableFull _ _ => 1

def lweight : List Block → Nat
  | [] => 0
  | b :: rest => bweight b + lweight rest

def iweight : List (List Block) → Nat
  | [] => 0
  | item :: rest => 2 + lweight item + iweight rest

end

theorem bweight_pos (b : Block) : 1 ≤ bweight b := by
  cases b <;> simp [bweight] <;> omega

theorem paragraphChildren_some {b : Block} {inls : List Inline}
    (h : paragraphChildren b = some inls) : b = .paragraph inls := by
  cases b <;> simp [paragraphChildren] at h <;> simp [h]

mutual

theorem lweight_merge_paragraphs (bs : List Block) :
    lweight (merge_paragraphs bs) ≤ lweight bs := by
  match bs with
  | [] => simp [merge_paragraphs]
  | b :: rest =>
      rw [merge_paragraphs]
      cases hb : paragraphChildren b with
      | some inls =>
          have hbe := paragraphChildren_some hb
          subst hbe
          have h := lweight_merge_para_run inls rest
          have h1 : bweight (Block.paragraph inls) = 1 := rfl
          simp only [lweight, h1]
          omega
      | none =>
          have h := lweight_merge_paragraphs rest
          simp only [lweight]
          omega

theorem lweight_merge_para_run (acc : List Inline) (bs : List Block) :
    lweight (merge_para_run acc bs) ≤ 1 + lweight bs := by
  match bs with
  | [] => simp [merge_para_run, lweight, bweight]
  | b :: rest =>
      rw [merge_para_run]
      cases hb : paragraphChildren b with
      | some inls =>
          have hbe := paragraphChildren_some hb
          subst hbe
          have h := lweight_merge_para_run (acc ++ inls) rest
          have h1 : bweight (Block.paragraph inls) = 1 := rfl
          simp only [lweight, h1]
          omega
      | none =>
          have h := lweight_merge_paragraphs rest
          have h1 : bweight (Block.paragraph acc) = 1 := rfl
          simp only [lweight, h1]
          omega

end

/-! ### Per-block rendering (`block_to_region` and its helpers) -/

mutual

/-- `block_to_region` (src/ast/writer/blocks.rs): map a block to a region;
`Item`, `Table` and `TableRow` fall into the empty-region fallback. -/
def block_to_region : Block → Region
  | .paragraph inls => render_paragraph inls
  | .heading level _id _classes _attrs children => render_heading level children
  | .codeBlock kind content => render_codeblock kind content
  | .htmlBlock rgn => ⟨(splitChar '\n' rgn.apply).map Line.from_str, []⟩
  | .blockQuote children => render_blockquote children
  | .list start items => render_list_items start.isSome start 0 items Region.new
  | .rule => render_rule
  | .footnoteDefinition id children => render_footnote_def id children
  | .tableFull aligns rows => render_table_full aligns rows
  | .item _ => Region.new
  | .table _ => Region.new
  | .tableRow _ => Region.new
termination_by b => bweight b
decreasing_by
  all_goals simp only [bweight, lweight, iweight]
  all_goals omega

/-- `render_blockquote`: children joined with blank lines, then every line
prefixed with `"> "`; empty content renders as the empty region. -/
def render_blockquote (children : List Block) : Region :=
  let inner := concat_children_regions children true Region.new
  if inner.is_empty then Region.new else inner.prefix_each_line (str "> ")
termination_by lweight children + 2
decreasing_by
  all_goals omega

/-- The `for b in children` loops of `render_blockquote`,
`render_footnote_def` and `render_list`: render each block and append its
lines, a blank line before every block but the first. -/
def concat_children_regions : List Block → Bool → Region → Region
  | [], _, acc => acc
  | b :: rest, first, acc =>
      let acc := if first then acc else acc.push_back_line (Line.from_str [])
      concat_children_regions rest false (pushAllLines acc (block_to_region b).into_lines)
termination_by bs _ _ => lweight bs + 1
decreasing_by
  all_goals simp only [lweight]
  all_goals have h := bweight_pos b
  all_goals omega

/-- The per-item loop of `render_list`: merge consecutive paragraphs, render
the item, add the empty placeholder line for empty items whose first child is
not a nested list, prefix the marker and indent continuations, and follow
each item with a blank line. -/
def render_list_items (ordered : Bool) (start : Option Nat) :
    Nat → List (List Block) → Region → Region
  | _, [], acc => acc
  | i, item :: rest, acc =>
      let marker :=
        if ordered then natDigits (start.getD 1 + i) ++ str ". " else str "- "
      let merged := merge_paragraphs item
      let item_region := concat_children_regions merged true Region.new
      let item_region :=
        if item_region.is_empty then
          match item.head? with
          | some (.list _ _) => item_region
          | _ => item_region.push_back_line (Line.from_str [])
        else item_region
      let item_region := item_region.prefix_first_then_indent_rest marker
      render_list_items ordered start (i + 1) rest
        ((pushAllLines acc item_region.into_lines).push_back_line (Line.from_str []))
termination_by _ items _ => iweight items
decreasing_by
  all_goals simp only [iweight]
  all_goals have h := lweight_merge_paragraphs item
  all_goals omega

/-- `render_footnote_def`: children joined with blank lines and indented by
4, except that the first line is instead prefixed with the footnote marker. -/
def render_footnote_def (id : Str) (children : List Block) : Region :=
  let inner := (concat_children_regions children true Region.new).indent_each_line 4
  match inner.into_lines with
  | [] => Region.new
  | l0 :: rest =>
      ⟨(Line.from_str (str "[^" ++ id ++ str "]: ")).push l0.apply :: rest, []⟩
termination_by lweight children + 2
decreasing_by
  all_goals omega

end

/-- `render_list`: the entry point of list rendering. -/
def render_list (ordered : Bool) (start : Option Nat) (items : List (List Block)) :
    Region :=
  render_list_items ordered start 0 items Region.new

/-- One root block of `blocks_to_markdown`: state is the output so far and
the first-block flag; a `"\n\n"` separator precedes every block but the
first, and every region line is terminated with `'\n'`. -/
def bmStep (st : Str × Bool) (b : Block) : Str × Bool :=
  let out := if st.2 then st.1 else st.1 ++ str "\n\n"
  ((block_to_region b).into_lines.foldl (fun out ln => out ++ ln.apply ++ ['\n']) out,
    false)

/-- `blocks_to_markdown`: root regions joined by `"\n\n"`, every line of
every region terminated with `'\n'`. -/
def blocks_to_markdown (blocks : List Block) : Str :=
  (blocks.foldl bmStep ([], true)).1

/-! ## Canonicalization of event sequences (`tests/events_roundtrip.rs`) -/

/-- The blank-line-collapsing loop of `normalize_events`: runs of blank
lines inside code-block text collapse to a single blank line. -/
def collapseBlankGo : Str → Bool → List Str → Str
  | res, _, [] => res
  | res, lastEmpty, line :: rest =>
      if trimIsEmpty line then
        if lastEmpty then collapseBlankGo res true rest
        else collapseBlankGo (if res.isEmpty then res else res ++ ['\n']) true rest
      else
        collapseBlankGo ((if res.isEmpty then res else res ++ ['\n']) ++ line) false rest

/-- Collapse blank-line runs in code-block text, preserving a final
trailing newline. -/
def collapseBlank (txt : Str) : Str :=
  let res := collapseBlankGo [] false (splitChar '\n' txt)
  if endsWith txt '\n' && ! endsWith res '\n' then res ++ ['\n'] else res

/-- Merge a text payload into the output of `normalize_events`: appended to
a trailing `Text` event when there is one. -/
def normAppendText (out : List Event) (txt : Str) : List Event :=
  match out.getLast? with
  | some (.text prev) => out.dropLast ++ [.text (prev ++ txt)]
  | _ => out ++ [.text txt]

/-- One event of `normalize_events`: state is the in-code-block flag and
the output so far. -/
def normStep (st : Bool × List Event) (e : Event) : Bool × List Event :=
  match e with
  | .start (.codeBlock k) => (true, st.2 ++ [.start (.codeBlock k)])
  | .endTag .codeBlock => (false, st.2 ++ [.endTag .codeBlock])
  | .text t => (st.1, normAppendText st.2 (if st.1 then collapseBlank t else t))
  | other => (st.1, st.2 ++ [other])

/-- `normalize_events` (tests/events_roundtrip.rs): merge adjacent `Text`
events and collapse blank-line runs inside code blocks. -/
def normalize_events (evts : List Event) : List Event :=
  (evts.foldl normStep (false, [])).2

/-- `filter_paragraph_events`: drop `Paragraph` boundary markers. -/
def filter_paragraph_events (evts : List Event) : List Event :=
  evts.filter fun e =>
    match e with
    | .start .paragraph => false
    | .endTag .paragraph => false
    | _ => true

/-- A canonical token of `canonicalize_events`: the stringified tokens are
injective images of these (each `Debug` rendering determines its event). -/
inductive CTok
  | ctext (s : Str)
  | cevent (e : Event)
  deriving DecidableEq, Repr

/-- Flush the pending text accumulator of `canonicalize_events`. -/
def flushAcc : Option Str → List CTok
  | some s => [.ctext s]
  | none => []

/-- The loop of `canonicalize_events`: collapse `Text` runs into single
tokens; inline `Code` becomes a backticked text token of its own. -/
def canonicalizeGo : Option Str → List Event → List CTok
  | acc, [] => flushAcc acc
  | acc, .text t :: rest =>
      canonicalizeGo
        (match acc with
         | some s => some (s ++ t)
         | none => some t) rest
  | acc, .code t :: rest =>
      flushAcc acc ++ .ctext ('`' :: t ++ ['`']) :: canonicalizeGo none rest
  | acc, e :: rest =>
      flushAcc acc ++ .cevent e :: canonicalizeGo none rest

def canonicalize_events (evts : List Event) : List CTok := canonicalizeGo none evts

/-- The canonicalization of the round-trip test: normalize, drop paragraph
markers, then collapse text runs into tokens. -/
def canon (evts : List Event) : List CTok :=
  canonicalize_events (filter_paragraph_events (normalize_events evts))

/-! ## Definitions supporting the claims -/

/-- A hook that intercepts a `Rule` event, consuming one event. -/
def ruleHook : Hook := fun evs _ _ =>
  match evs with
  | .rule :: _ => some (1, .rule)
  | _ => none

/-- A hook that always fires and consumes zero events. -/
def zeroHook : Hook := fun _ _ _ => some (0, .rule)

/-- The hook that always declines. -/
def noHook : Hook := fun _ _ _ => none

/-- `parse_events_to_blocks_with_hook` terminates on the given inputs:
some amount of fuel completes the loop. -/
def hookTerminates (h : Hook) (evts : List Event) : Prop :=
  ∃ fuel, (parse_with_hook_fuel h fuel evts 0 ⟨[], []⟩).isSome

/-- Modelled from the spec: the placement of a hook-produced node as claim
C3 words it — "the top frame's block list when the frame stack is non-empty,
or the root output sequence when the stack is empty". -/
def claimedHookPlacement (s : State) (blk : Block) : State :=
  match s.stack with
  | top :: below => ⟨{ top with blocks := top.blocks ++ [blk] } :: below, s.out⟩
  | [] => ⟨[], s.out ++ [blk]⟩

/-- All reference definitions returned by the non-break inlines of a
paragraph, in traversal order, with duplicates retained. -/
def paragraph_raw_defs (p : List Inline) : List (Str × Str × Str) :=
  p.filterMap fun inl =>
    match inl with
    | .softBreak => none
    | .hardBreak => none
    | _ => (append_inline_to_line Line.new inl).2

/-- The two break inlines, which `render_paragraph` handles specially. -/
def isBreak : Inline → Bool
  | .softBreak => true
  | .hardBreak => true
  | _ => false

/-- First-wins deduplication by id: the accumulation performed by
`render_paragraph`'s `defs` vector. -/
def dedupFirstDefs (defs : List (Str × Str × Str)) : List (Str × Str × Str) :=
  defs.foldl dedupStep []

/-- The text a root block contributes to `blocks_to_markdown`: each of its
region's lines terminated by `'\n'`. -/
def block_out_text (b : Block) : Str :=
  (block_to_region b).into_lines.foldl (fun out ln => out ++ ln.apply ++ ['\n']) []

/-- The spec's §3 invariant on tokenizer sequences: matching of a start tag
with an end tag of the same node kind. -/
def tagMatchesEnd : Tag → TagEnd → Bool
  | .paragraph, .paragraph => true
  | .heading lv _ _ _, .heading lv' => lv = lv'
  | .blockQuote k, .blockQuote k' => k = k'
  | .codeBlock _, .codeBlock => true
  | .htmlBlock, .htmlBlock => true
  | .list st, .list ordered => st.isSome = ordered
  | .item, .item => true
  | .footnoteDefinition _, .footnoteDefinition => true
  | .definitionList, .definitionList => true
  | .definitionListTitle, .definitionListTitle => true
  | .definitionListDefinition, .definitionListDefinition => true
  | .table _, .table => true
  | .tableHead, .tableHead => true
  | .tableRow, .tableRow => true
  | .tableCell, .tableCell => true
  | .emphasis, .emphasis => true
  | .strong, .strong => true
  | .strikethrough, .strikethrough => true
  | .subscript, .subscript => true
  | .superscript, .superscript => true
  | .link .., .link => true
  | .image .., .image => true
  | .metadataBlock k, .metadataBlock k' => k = k'
  | _, _ => false

/-- Modelled from the spec (§3): "every Start event must be matched by
exactly one End event of the same node kind" — balance of an event
sequence against a stack of open tags. -/
def balancedFrom : List Tag → List Event → Bool
  | open_tags, [] => open_tags.isEmpty
  | open_tags, .start t :: rest => balancedFrom (t :: open_tags) rest
  | t :: open_tags, .endTag te :: rest =>
      tagMatchesEnd t te && balancedFrom open_tags rest
  | [], .endTag _ :: _ => false
  | open_tags, _ :: rest => balancedFrom open_tags rest

def balancedEvents (evts : List Event) : Bool := balancedFrom [] evts

/-! ## The re-parseable fragment of the document model (claim C2)

`parse ∘ block_to_events` is the identity on blocks in this fragment: no
table nodes (they emit no events), heading classes and attrs empty (they
are dropped on re-emission), text regions single-line, and every region in
the normal form produced by `Region::from_str` of its own `apply`. -/

mutual

def reparsableI : Inline → Bool
  | .text r =>
      (splitChar '\n' r.apply == [r.apply]) && (Region.from_str r.apply == r)
  | .code r => Region.from_str r.apply == r
  | .inlineHtml r => Region.from_str r.apply == r
  | .html r => Region.from_str r.apply == r
  | .softBreak => true
  | .hardBreak => true
  | .emphasis children => reparsableLI children
  | .strong children => reparsableLI children
  | .strikethrough children => reparsableLI children
  | .subscript children => reparsableLI children
  | .superscript children => reparsableLI children
  | .link _ _ _ _ children => reparsableLI children
  | .image _ _ _ _ children => reparsableLI children
  | .footnoteReference _ => true
  | .inlineMath r => Region.from_str r.apply == r
  | .displayMath r => Region.from_str r.apply == r

def reparsableLI : List Inline → Bool
  | [] => true
  | i :: rest => reparsableI i && reparsableLI rest

def reparsableB : Block → Bool
  | .paragraph children => reparsableLI children
  | .heading _ _ classes attrs children =>
      classes.isEmpty && attrs.isEmpty && reparsableLI children
  | .blockQuote children => reparsableLB children
  | .codeBlock _ content => Region.from_str content.apply == content
  | .htmlBlock r => Region.from_str r.apply == r
  | .list _ items => reparsableItems items
  | .item children => reparsableLB children
  | .rule => true
  | .footnoteDefinition _ children => reparsableLB children
  | .table _ => false
  | .tableRow _ => false
  | .tableFull _ _ => false

def reparsableLB : List Block → Bool
  | [] => true
  | b :: rest => reparsableB b && reparsableLB rest

def reparsableItems : List (List Block) → Bool
  | [] => true
  | item :: rest => reparsableLB item && reparsableItems rest

end

/-! ## A model of tokenizer-produced event sequences (claim C1)

Modelled from the spec: the spec treats the tokenizer as "an opaque
producer of a fixed event vocabulary" (§6) whose sequences satisfy the
start/end matching invariant (§3).  `TBlock` describes the shape of the
sequences the tokenizer emits for common block structures: paragraphs and
headings wrapping inline runs, blockquotes, loose lists (items wrapping
blocks), rules, footnote definitions, and fenced/indented code blocks
emitting their text line by line. -/

mutual

inductive TInline
  | ttext (s : Str)
  | tcode (s : Str)
  | tsoftBreak
  | thardBreak
  | temphasis (children : TInlines)
  | tstrong (children : TInlines)
  | tlink (lt : LinkType) (dest : Str) (title : Str) (id : Str) (children : TInlines)
  | timage (lt : LinkType) (dest : Str) (title : Str) (id : Str) (children : TInlines)

inductive TInlines
  | nil
  | cons (i : TInline) (rest : TInlines)

inductive TBlock
  | tparagraph (children : TInlines)
  | theading (level : HeadingLevel) (id : Option Str) (children : TInlines)
  | tblockquote (children : TBlocks)
  | tcodeblock (kind : CodeBlockKind) (ls : List Str)
  | tlist (start : Option Nat) (items : TItems)
  | trule
  | tfootnotedef (label : Str) (children : TBlocks)

inductive TBlocks
  | nil
  | cons (b : TBlock) (rest : TBlocks)

inductive TItems
  | nil
  | cons (item : TBlocks) (rest : TItems)

end

mutual

/-- The event sequence the tokenizer emits for one modelled inline. -/
def tiEvents : TInline → List Event
  | .ttext s => [.text s]
  | .tcode s => [.code s]
  | .tsoftBreak => [.softBreak]
  | .thardBreak => [.hardBreak]
  | .temphasis c => .start .emphasis :: tisEvents c ++ [.endTag .emphasis]
  | .tstrong c => .start .strong :: tisEvents c ++ [.endTag .strong]
  | .tlink lt d t id c => .start (.link lt d t id) :: tisEvents c ++ [.endTag .link]
  | .timage lt d t id c => .start (.image lt d t id) :: tisEvents c ++ [.endTag .image]

def tisEvents : TInlines → List Event
  | .nil => []
  | .cons i rest => tiEvents i ++ tisEvents rest

/-- The event sequence the tokenizer emits for one modelled block; code
blocks emit one `Text` event per line, each ending in `'\n'`. -/
def tbEvents : TBlock → List Event
  | .tparagraph c => .start .paragraph :: tisEvents c ++ [.endTag .paragraph]
  | .theading lv id c =>
      .start (.heading lv id [] []) :: tisEvents c ++ [.endTag (.heading lv)]
  | .tblockquote c =>
      .start (.blockQuote none) :: tbsEvents c ++ [.endTag (.blockQuote none)]
  | .tcodeblock kind ls =>
      .start (.codeBlock kind) :: ls.map (fun l => Event.text (l ++ ['\n']))
        ++ [.endTag .codeBlock]
  | .tlist start items =>
      .start (.list start) :: titemsEvents items ++ [.endTag (.list start.isSome)]
  | .trule => [.rule]
  | .tfootnotedef label c =>
      .start (.footnoteDefinition label) :: tbsEvents c ++ [.endTag .footnoteDefinition]

def tbsEvents : TBlocks → List Event
  | .nil => []
  | .cons b rest => tbEvents b ++ tbsEvents rest

def titemsEvents : TItems → List Event
  | .nil => []
  | .cons item rest =>
      .start .item :: tbsEvents item ++ [.endTag .item] ++ titemsEvents rest

end

/-- A code-block line as the tokenizer emits it: no embedded newline and
not a blank line. -/
def tlineOK (l : Str) : Bool := !l.contains '\n' && !trimIsEmpty l

/-- Validity of a modelled code block: at least one line, all lines
newline-free and non-blank. -/
def tcodeOK (ls : List Str) : Bool := !ls.isEmpty && ls.all tlineOK

mutual

/-- Validity of modelled inline events: text payloads carry no embedded
newline (the tokenizer emits `SoftBreak` events instead). -/
def tiValid : TInline → Bool
  | .ttext s => !s.contains '\n'
  | .tcode _ => true
  | .tsoftBreak => true
  | .thardBreak => true
  | .temphasis c => tisValid c
  | .tstrong c => tisValid c
  | .tlink _ _ _ _ c => tisValid c
  | .timage _ _ _ _ c => tisValid c

def tisValid : TInlines → Bool
  | .nil => true
  | .cons i rest => tiValid i && tisValid rest

def tbValid : TBlock → Bool
  | .tparagraph c => tisValid c
  | .theading _ _ c => tisValid c
  | .tblockquote c => tbsValid c
  | .tcodeblock _ ls => tcodeOK ls
  | .tlist _ items => titemsValid items
  | .trule => true
  | .tfootnotedef _ c => tbsValid c

def tbsValid : TBlocks → Bool
  | .nil => true
  | .cons b rest => tbValid b && tbsValid rest

def titemsValid : TItems → Bool
  | .nil => true
  | .cons item rest => tbsValid item && titemsValid rest

end

/-- Concatenate code-block lines, each terminated by `'\n'`. -/
def codeLinesText (ls : List Str) : Str := (ls.map (· ++ ['\n'])).flatten

mutual

/-- The tree the reconstruction engine builds from `tiEvents`. -/
def decodeI : TInline → Inline
  | .ttext s => .text (Region.from_str s)
  | .tcode s => .code (Region.from_str s)
  | .tsoftBreak => .softBreak
  | .thardBreak => .hardBreak
  | .temphasis c => .emphasis (decodeLI c)
  | .tstrong c => .strong (decodeLI c)
  | .tlink lt d t id c => .link lt d t id (decodeLI c)
  | .timage lt d t id c => .image lt d t id (decodeLI c)

def decodeLI : TInlines → List Inline
  | .nil => []
  | .cons i rest => decodeI i :: decodeLI rest

/-- The tree the reconstruction engine builds from `tbEvents`. -/
def decodeB : TBlock → Block
  | .tparagraph c => .paragraph (decodeLI c)
  | .theading lv id c => .heading lv id [] [] (decodeLI c)
  | .tblockquote c => .blockQuote (decodeLB c)
  | .tcodeblock kind ls => .codeBlock kind (Region.from_str (codeLinesText ls))
  | .tlist start items => .list start (decodeItems items)
  | .trule => .rule
  | .tfootnotedef label c => .footnoteDefinition label (decodeLB c)

def decodeLB : TBlocks → List Block
  | .nil => []
  | .cons b rest => decodeB b :: decodeLB rest

def decodeItems : TItems → List (List Block)
  | .nil => []
  | .cons item rest => decodeLB item :: decodeItems rest

end

/-- The destination of a reconstructed block: the top frame's block buffer,
or the root output when the stack is empty (shared by several proofs). -/
def appendBlocksDest (fs : List Frame) (out : List Block) (bs : List Block) : State :=
  match fs with
  | top :: below => ⟨{ top with blocks := top.blocks ++ bs } :: below, out⟩
  | [] => ⟨[], out ++ bs⟩

/-- The stacks into which block-level reconstruction appends cleanly: empty,
or topped by a frame that collects blocks. -/
def stackOK : List Frame → Bool
  | [] => true
  | f :: _ => !f.collect_inlines

/-- Events that neither open nor close a code block: the in-code-block
flag of `normalize_events` is invariant under them. -/
def noCB : Event → Bool
  | .start (.codeBlock _) => false
  | .endTag .codeBlock => false
  | _ => true

/-! # Theorems -/

/-! ## String and region helper lemmas -/

theorem splitChar_ne_nil (c : Char) (s : Str) : splitChar c s ≠ [] := by
  induction s with
  | nil => simp [splitChar]
  | cons a rest ih =>
      rw [splitChar]
      by_cases h : a = c
      · simp [h]
      · simp only [if_neg h]
        cases hs : splitChar c rest with
        | nil => simp
        | cons p ps => simp

theorem joinSep_cons_cons (sep : Str) (p q : Str) (qs : List Str) :
    joinSep sep (p :: q :: qs) = p ++ sep ++ joinSep sep (q :: qs) := rfl

theorem joinSep_splitChar (c : Char) (s : Str) : joinSep [c] (splitChar c s) = s := by
  induction s with
  | nil => simp [splitChar, joinSep]
  | cons a rest ih =>
      rw [splitChar]
      by_cases h : a = c
      · rw [if_pos h]
        subst h
        cases hs : splitChar a rest with
        | nil => exact absurd hs (splitChar_ne_nil a rest)
        | cons p ps =>
            rw [hs] at ih
            rw [joinSep_cons_cons]
            simpa using ih
      · simp only [if_neg h]
        cases hs : splitChar c rest with
        | nil => exact absurd hs (splitChar_ne_nil c rest)
        | cons p ps =>
            rw [hs] at ih
            cases ps with
            | nil =>
                show joinSep [c] [a :: p] = a :: rest
                have : joinSep [c] [p] = p := rfl
                rw [this] at ih
                simp [joinSep, ih]
            | cons q qs =>
                rw [joinSep_cons_cons] at ih
                rw [joinSep_cons_cons]
                simpa using ih

theorem Line.from_str_apply (s : Str) : (Line.from_str s).apply = s := by
  simp [Line.from_str, Line.apply]

theorem Region.apply_from_str (s : Str) : (Region.from_str s).apply = s := by
  rw [Region.from_str]
  by_cases h : s.isEmpty
  · simp_all [Region.apply, joinSep, List.isEmpty_iff]
  · simp only [if_neg h, Region.apply]
    have : ((splitChar '\n' s).map Line.from_str ++ []).map Line.apply
        = splitChar '\n' s := by
      rw [List.append_nil, List.map_map]
      have hcong : ∀ x ∈ splitChar '\n' s, (Line.apply ∘ Line.from_str) x = id x := by
        intro x _
        simp [Line.from_str_apply, Function.comp]
      rw [List.map_congr_left hcong, List.map_id]
    rw [this, joinSep_splitChar]

theorem splitChar_of_not_contains {c : Char} {s : Str} (h : s.contains c = false) :
    splitChar c s = [s] := by
  induction s with
  | nil => simp [splitChar]
  | cons a rest ih =>
      simp only [List.contains_cons, Bool.or_eq_false_iff, beq_eq_false_iff_ne] at h
      rw [splitChar, if_neg (fun hac => h.1 hac.symm), ih h.2]

/-! ## Claim C6: table rendering on the spec's example -/

/-- Claim C6 counterexample: on header `["A","B"]`, row `["1","22"]`,
alignments `[Left, Right]`, the computed column widths are `[1, 2]`, not
`[2, 2]` as claimed, and the separator row renders `": | -:"`, not
`":--|--:"`. -/
theorem C6_counterexample :
    table_col_widths
        (table_cols [Alignment.left, Alignment.right]
          [[[Inline.text (Region.from_str (str "A"))], [Inline.text (Region.from_str (str "B"))]],
           [[Inline.text (Region.from_str (str "1"))], [Inline.text (Region.from_str (str "22"))]]])
        (table_cells_text
          (table_cols [Alignment.left, Alignment.right]
            [[[Inline.text (Region.from_str (str "A"))], [Inline.text (Region.from_str (str "B"))]],
             [[Inline.text (Region.from_str (str "1"))], [Inline.text (Region.from_str (str "22"))]]])
          [[[Inline.text (Region.from_str (str "A"))], [Inline.text (Region.from_str (str "B"))]],
           [[Inline.text (Region.from_str (str "1"))], [Inline.text (Region.from_str (str "22"))]]])
        ≠ [2, 2]
    ∧ ((render_table_full [Alignment.left, Alignment.right]
          [[[Inline.text (Region.from_str (str "A"))], [Inline.text (Region.from_str (str "B"))]],
           [[Inline.text (Region.from_str (str "1"))], [Inline.text (Region.from_str (str "22"))]]]).into_lines.map
        Line.apply).get? 1 = some (str ": | -:")
    ∧ str ": | -:" ≠ str ":--|--:" := by
  refine ⟨by decide, by decide, by decide⟩

/-- Claim C6 (amended): on header `["A","B"]`, row `["1","22"]`, alignments
`[Left, Right]`, the column widths equal the per-column maxima of display
widths, `[1, 2]`; the rendered table is `"A |  B"` / `": | -:"` / `"1 | 22"`
(columns joined by `" | "`, cells padded to the column width). -/
theorem C6_table_example :
    table_col_widths
        (table_cols [Alignment.left, Alignment.right]
          [[[Inline.text (Region.from_str (str "A"))], [Inline.text (Region.from_str (str "B"))]],
           [[Inline.text (Region.from_str (str "1"))], [Inline.text (Region.from_str (str "22"))]]])
        (table_cells_text
          (table_cols [Alignment.left, Alignment.right]
            [[[Inline.text (Region.from_str (str "A"))], [Inline.text (Region.from_str (str "B"))]],
             [[Inline.text (Region.from_str (str "1"))], [Inline.text (Region.from_str (str "22"))]]])
          [[[Inline.text (Region.from_str (str "A"))], [Inline.text (Region.from_str (str "B"))]],
           [[Inline.text (Region.from_str (str "1"))], [Inline.text (Region.from_str (str "22"))]]])
        = [1, 2]
    ∧ (render_table_full [Alignment.left, Alignment.right]
          [[[Inline.text (Region.from_str (str "A"))], [Inline.text (Region.from_str (str "B"))]],
           [[Inline.text (Region.from_str (str "1"))], [Inline.text (Region.from_str (str "22"))]]]).into_lines.map
        Line.apply = [str "A |  B", str ": | -:", str "1 | 22"] := by
  refine ⟨by decide, by decide⟩

/-! ## Claim C8: fence escalation -/

theorem tickFold_max_mono (s : Str) : ∀ acc : Nat × Nat, acc.1 ≤ (s.foldl tickStep acc).1 := by
  induction s with
  | nil => intro acc; simp
  | cons a rest ih =>
      intro acc
      refine le_trans ?_ (ih (tickStep acc a))
      simp only [tickStep]
      split_ifs <;> simp <;> omega

theorem tickFold_three_backticks (post : Str) (acc : Nat × Nat) :
    3 ≤ (List.foldl tickStep acc ('`' :: '`' :: '`' :: post)).1 := by
  rw [List.foldl_cons, List.foldl_cons, List.foldl_cons]
  refine le_trans ?_ (tickFold_max_mono post _)
  simp only [tickStep]
  split_ifs <;> simp_all <;> omega

/-- Claim C8: a fenced code block renders as the opening fence of
`max(3, longest backtick run + 1)` backticks carrying the language tag, then
the content lines, then the closing fence; content containing a
three-backtick run forces a fence of at least four backticks. -/
theorem C8_fence_escalation (lang : Str) (content : Region) :
    ((render_codeblock (.fenced lang) content).into_lines).map Line.apply
      = (backticks (max 3 (maxTickRun content.apply + 1)) ++ lang)
        :: rustLines content.apply
        ++ [backticks (max 3 (maxTickRun content.apply + 1))]
    ∧ (∀ pre post, content.apply = pre ++ str "```" ++ post →
        4 ≤ max 3 (maxTickRun content.apply + 1)) := by
  constructor
  · have hcong : ∀ x ∈ rustLines content.apply,
        (Line.apply ∘ Line.from_str) x = id x := by
      intro x _
      simp [Line.from_str_apply, Function.comp]
    simp only [render_codeblock, Region.into_lines, List.append_nil, List.map_cons,
      List.map_append, List.map_map, Line.from_str_apply,
      List.map_congr_left hcong, List.map_id, List.map_nil]
  · intro pre post hsplit
    have hsplit' : content.apply = pre ++ ('`' :: '`' :: '`' :: post) := by
      rw [hsplit]
      simp [str]
    have h3 : 3 ≤ maxTickRun content.apply := by
      rw [maxTickRun, hsplit', List.foldl_append]
      exact tickFold_three_backticks post _
    omega

/-! ## Claim C9: leaf-event placement -/

/-- Claim C9 counterexample: an `InlineMath` event processed while the top
frame (a blockquote) has `collects_inlines = false` is appended to that
frame's inline buffer, not to its block buffer. -/
theorem C9_counterexample :
    parseStep ⟨[⟨.blockQuote none, [], [], false⟩], []⟩ (.inlineMath (str "x"))
      = ⟨[⟨.blockQuote none, [.inlineMath (Region.from_str (str "x"))], [], false⟩], []⟩
    ∧ ([Inline.inlineMath (Region.from_str (str "x"))] : List Inline) ≠ [] :=
  ⟨rfl, by simp⟩

/-- Claim C9 (amended): with a frame open, `Text`, `Code`, `SoftBreak`,
`HardBreak` and `Html` follow the top frame's `collects_inlines` flag (the
block-buffer form wrapping in a `Paragraph`, or an `HtmlBlock` for `Html`);
`InlineHtml`, `TaskListMarker`, `FootnoteReference`, `InlineMath` and
`DisplayMath` always go to the inline buffer, and `Rule` always to the block
buffer; with no open frame each wraps into the root sequence. -/
theorem C9_leaf_placement (top : Frame) (below : List Frame) (out : List Block)
    (t : Str) (b : Bool) :
    (parseStep ⟨top :: below, out⟩ (.text t) =
      if top.collect_inlines then
        ⟨{ top with inlines := top.inlines ++ [.text (Region.from_str t)] } :: below, out⟩
      else
        ⟨{ top with blocks := top.blocks ++ [.paragraph [.text (Region.from_str t)]] } :: below,
          out⟩)
    ∧ (parseStep ⟨top :: below, out⟩ (.code t) =
      if top.collect_inlines then
        ⟨{ top with inlines := top.inlines ++ [.code (Region.from_str t)] } :: below, out⟩
      else
        ⟨{ top with blocks := top.blocks ++ [.paragraph [.code (Region.from_str t)]] } :: below,
          out⟩)
    ∧ (parseStep ⟨top :: below, out⟩ .softBreak =
      if top.collect_inlines then
        ⟨{ top with inlines := top.inlines ++ [.softBreak] } :: below, out⟩
      else
        ⟨{ top with blocks := top.blocks ++ [.paragraph [.softBreak]] } :: below, out⟩)
    ∧ (parseStep ⟨top :: below, out⟩ .hardBreak =
      if top.collect_inlines then
        ⟨{ top with inlines := top.inlines ++ [.hardBreak] } :: below, out⟩
      else
        ⟨{ top with blocks := top.blocks ++ [.paragraph [.hardBreak]] } :: below, out⟩)
    ∧ (parseStep ⟨top :: below, out⟩ (.html t) =
      if top.collect_inlines then
        ⟨{ top with inlines := top.inlines ++ [.html (Region.from_str t)] } :: below, out⟩
      else
        ⟨{ top with blocks := top.blocks ++ [.htmlBlock (Region.from_str t)] } :: below, out⟩)
    ∧ (parseStep ⟨top :: below, out⟩ .rule =
        ⟨{ top with blocks := top.blocks ++ [.rule] } :: below, out⟩)
    ∧ (parseStep ⟨top :: below, out⟩ (.inlineHtml t) =
        ⟨{ top with inlines := top.inlines ++ [.inlineHtml (Region.from_str t)] } :: below, out⟩)
    ∧ (parseStep ⟨top :: below, out⟩ (.taskListMarker b) =
        ⟨{ top with inlines := top.inlines
            ++ [.text (Region.from_str (if b then str "[x]" else str "[ ]"))] } :: below, out⟩)
    ∧ (parseStep ⟨top :: below, out⟩ (.footnoteReference t) =
        ⟨{ top with inlines := top.inlines ++ [.footnoteReference t] } :: below, out⟩)
    ∧ (parseStep ⟨top :: below, out⟩ (.inlineMath t) =
        ⟨{ top with inlines := top.inlines ++ [.inlineMath (Region.from_str t)] } :: below, out⟩)
    ∧ (parseStep ⟨top :: below, out⟩ (.displayMath t) =
        ⟨{ top with inlines := top.inlines ++ [.displayMath (Region.from_str t)] } :: below, out⟩)
    ∧ (parseStep ⟨[], out⟩ (.text t) = ⟨[], out ++ [.paragraph [.text (Region.from_str t)]]⟩)
    ∧ (parseStep ⟨[], out⟩ (.html t) = ⟨[], out ++ [.htmlBlock (Region.from_str t)]⟩)
    ∧ (parseStep ⟨[], out⟩ .rule = ⟨[], out ++ [.rule]⟩)
    ∧ (parseStep ⟨[], out⟩ (.inlineMath t) =
        ⟨[], out ++ [.paragraph [.inlineMath (Region.from_str t)]]⟩) := by
  refine ⟨?_, ?_, ?_, ?_, ?_, ?_, ?_, ?_, ?_, ?_, ?_, ?_, ?_, ?_, ?_⟩ <;>
    first
      | (by_cases h : top.collect_inlines <;>
          simp [parseStep, placeLeafPerFlag, placeLeafInline, h])
      | simp [parseStep, placeLeafPerFlag, placeLeafInline]

/-! ## Claim C10: underflow no-op, fallback, and totality -/

theorem noHook_run (evts : List Event) :
    ∀ (fuel i : Nat) (s : State), evts.length - i < fuel →
      parse_with_hook_fuel noHook fuel evts i s
        = some (((evts.drop i).foldl parseStep s).out) := by
  intro fuel
  induction fuel with
  | zero => intro i s h; omega
  | succ fuel ih =>
      intro i s h
      rw [parse_with_hook_fuel]
      by_cases hi : i < evts.length
      · rw [dif_pos hi]
        rw [List.drop_eq_getElem_cons hi]
        exact ih (i + 1) (parseStep s evts[i]) (by omega)
      · rw [dif_neg hi]
        have hni : evts.drop i = [] := List.drop_eq_nil_of_le (by omega)
        rw [hni]
        rfl

/-- Claim C10: an `End` event at empty stack leaves the state unchanged
(the cursor alone advances); an unrecognized start/end tag pair (the
definition-list tags, unknown to the engine) degrades to a `Paragraph` of
the frame's inlines; and for every event sequence the loop completes within
`length + 1` iterations, computing `parse_events_to_blocks` — reconstruction
never aborts. -/
theorem C10_underflow_noop :
    (∀ (te : TagEnd) (out : List Block), parseStep ⟨[], out⟩ (.endTag te) = ⟨[], out⟩)
    ∧ (∀ f : Frame,
        f.tag = .definitionList ∨ f.tag = .definitionListTitle ∨
          f.tag = .definitionListDefinition →
        endFrameNode f = (.paragraph f.inlines, none))
    ∧ (∀ evts : List Event,
        parse_with_hook_fuel noHook (evts.length + 1) evts 0 ⟨[], []⟩
          = some (parse_events_to_blocks evts))
    ∧ (∀ evts : List Event, hookTerminates noHook evts) := by
  refine ⟨?_, ?_, ?_, ?_⟩
  · intro te out; rfl
  · intro f hf
    obtain ⟨tag, inls, blks, ci⟩ := f
    rcases hf with h | h | h <;> (simp only at h; subst h; rfl)
  · intro evts
    rw [noHook_run evts (evts.length + 1) 0 ⟨[], []⟩ (by omega)]
    simp [parse_events_to_blocks]
  · intro evts
    exact ⟨evts.length + 1, by rw [noHook_run evts (evts.length + 1) 0 ⟨[], []⟩ (by omega)]; rfl⟩

/-- Claim C10 witness: the no-op, fallback and totality at concrete inputs. -/
theorem C10_underflow_noop_witness :
    parseStep ⟨[], [Block.rule]⟩ (.endTag .paragraph) = ⟨[], [Block.rule]⟩
    ∧ endFrameNode ⟨.definitionList, [], [], false⟩ = (.paragraph [], none)
    ∧ hookTerminates noHook [.rule] :=
  ⟨C10_underflow_noop.1 .paragraph [Block.rule],
   C10_underflow_noop.2.1 ⟨.definitionList, [], [], false⟩ (Or.inl rfl),
   C10_underflow_noop.2.2.2 [.rule]⟩

/-! ## Claim C3: hook output placement -/

/-- Claim C3 counterexample: with a non-empty frame stack, a hook-produced
node is pushed to the root output, not to the top frame's block list as
claimed — the full run returns the node at the root even though the open
paragraph frame is never closed. -/
theorem C3_counterexample :
    parse_with_hook_fuel ruleHook 2 [.rule] 0 ⟨[⟨.paragraph, [], [], true⟩], []⟩
      = some [.rule]
    ∧ claimedHookPlacement ⟨[⟨.paragraph, [], [], true⟩], []⟩ .rule
      ≠ ⟨[⟨.paragraph, [], [], true⟩], [] ++ [.rule]⟩ := by
  constructor
  · rfl
  · intro hcontra
    have h := congrArg State.out hcontra
    simp [claimedHookPlacement] at h

/-- Claim C3 (amended): whenever the hook fires at a position inside the
sequence, the produced node is appended to the root output sequence — the
frame stack unchanged — and the cursor advances by exactly `consumed`. -/
theorem C3_hook_placement (h : Hook) (fuel : Nat) (evts : List Event) (i : Nat)
    (s : State) (consumed : Nat) (blk : Block)
    (hi : i < evts.length)
    (hh : h (evts.drop i) i (mkContext s i) = some (consumed, blk)) :
    parse_with_hook_fuel h (fuel + 1) evts i s
      = parse_with_hook_fuel h fuel evts (i + consumed) ⟨s.stack, s.out ++ [blk]⟩ := by
  rw [parse_with_hook_fuel, dif_pos hi, hh]

/-- Claim C3 witness: the amended placement at the concrete interception. -/
theorem C3_hook_placement_witness :
    parse_with_hook_fuel ruleHook 1 [.rule] 0 ⟨[⟨.paragraph, [], [], true⟩], []⟩
      = parse_with_hook_fuel ruleHook 0 [.rule] 1
          ⟨[⟨.paragraph, [], [], true⟩], [] ++ [.rule]⟩ :=
  C3_hook_placement ruleHook 0 [.rule] 0 ⟨[⟨.paragraph, [], [], true⟩], []⟩ 1 .rule
    (by decide) rfl

/-! ## Claim C4: termination of reconstruction -/

theorem zeroHook_no_fuel :
    ∀ (n : Nat) (s : State), parse_with_hook_fuel zeroHook n [.rule] 0 s = none := by
  intro n
  induction n with
  | zero => intro s; rfl
  | succ n ih =>
      intro s
      rw [parse_with_hook_fuel, dif_pos (by decide)]
      exact ih _

/-- Claim C4 counterexample: a hook returning `Some((0, block))` makes the
loop spin forever — no amount of fuel completes it, so
`parse_events_to_blocks_with_hook` does not terminate on `[Rule]` with that
hook. -/
theorem C4_counterexample : ¬ hookTerminates zeroHook [.rule] := by
  rintro ⟨fuel, hsome⟩
  rw [zeroHook_no_fuel fuel ⟨[], []⟩] at hsome
  simp at hsome

theorem hook_progress_run (h : Hook)
    (hp : ∀ evs i ctx consumed blk, h evs i ctx = some (consumed, blk) → 1 ≤ consumed)
    (evts : List Event) :
    ∀ (fuel i : Nat) (s : State), evts.length - i < fuel →
      (parse_with_hook_fuel h fuel evts i s).isSome = true := by
  intro fuel
  induction fuel with
  | zero => intro i s hlt; omega
  | succ fuel ih =>
      intro i s hlt
      rw [parse_with_hook_fuel]
      by_cases hi : i < evts.length
      · rw [dif_pos hi]
        cases hcall : h (evts.drop i) i (mkContext s i) with
        | none => exact ih (i + 1) _ (by omega)
        | some pr =>
            obtain ⟨consumed, blk⟩ := pr
            have hc := hp _ _ _ consumed blk hcall
            exact ih (i + consumed) _ (by omega)
      · rw [dif_neg hi]
        rfl

/-- Claim C4 (amended): reconstruction with a hook terminates whenever the
hook consumes at least one event each time it fires (and, by
`C10_underflow_noop`, always terminates with no hook); a hook may consume
zero events, and then the loop never finishes. -/
theorem C4_hook_termination (h : Hook) (evts : List Event)
    (hp : ∀ evs i ctx consumed blk, h evs i ctx = some (consumed, blk) → 1 ≤ consumed) :
    hookTerminates h evts :=
  ⟨evts.length + 1, hook_progress_run h hp evts (evts.length + 1) 0 ⟨[], []⟩ (by omega)⟩

/-- Claim C4 witness: the rule-intercepting hook consumes one event when it
fires, so reconstruction with it terminates. -/
theorem C4_hook_termination_witness : hookTerminates ruleHook [.rule] :=
  C4_hook_termination ruleHook [.rule] (by
    intro evs i ctx consumed blk hcall
    match evs with
    | [] => simp [ruleHook] at hcall
    | .rule :: rest =>
        simp [ruleHook] at hcall
        omega
    | .start t :: rest => simp [ruleHook] at hcall
    | .endTag t :: rest => simp [ruleHook] at hcall
    | .text t :: rest => simp [ruleHook] at hcall
    | .code t :: rest => simp [ruleHook] at hcall
    | .inlineHtml t :: rest => simp [ruleHook] at hcall
    | .html t :: rest => simp [ruleHook] at hcall
    | .footnoteReference t :: rest => simp [ruleHook] at hcall
    | .softBreak :: rest => simp [ruleHook] at hcall
    | .hardBreak :: rest => simp [ruleHook] at hcall
    | .taskListMarker b :: rest => simp [ruleHook] at hcall
    | .inlineMath t :: rest => simp [ruleHook] at hcall
    | .displayMath t :: rest => simp [ruleHook] at hcall)

/-- Claim C8 witness: a concrete fenced block whose content embeds three
backticks gets a four-backtick fence. -/
theorem C8_fence_escalation_witness :
    ((render_codeblock (.fenced (str "rust")) (Region.from_str (str "a```b"))).into_lines).map
        Line.apply
      = (backticks (max 3 (maxTickRun (Region.from_str (str "a```b")).apply + 1)) ++ str "rust")
        :: rustLines (Region.from_str (str "a```b")).apply
        ++ [backticks (max 3 (maxTickRun (Region.from_str (str "a```b")).apply + 1))]
    ∧ 4 ≤ max 3 (maxTickRun (Region.from_str (str "a```b")).apply + 1) :=
  ⟨(C8_fence_escalation (str "rust") (Region.from_str (str "a```b"))).1,
   (C8_fence_escalation (str "rust") (Region.from_str (str "a```b"))).2 (str "a") (str "b")
     (by decide)⟩

/-! ## Claim C5: reference-definition deduplication -/

theorem Region.suffix_push_back_line (r : Region) (l : Line) :
    (r.push_back_line l).suffix = r.suffix := rfl

theorem paraPushParts_suffix (parts : List Str) :
    ∀ (r : Region) (curr : Line), ((paraPushParts r curr parts).1).suffix = r.suffix := by
  induction parts with
  | nil => intro r curr; rfl
  | cons p rest ih =>
      intro r curr
      cases rest with
      | nil => rfl
      | cons q qs =>
          have hstep : paraPushParts r curr (p :: q :: qs)
              = paraPushParts (r.push_back_line (if p.isEmpty then curr else curr.push p))
                  Line.new (q :: qs) := rfl
          rw [hstep, ih]
          rfl

theorem paraStep_break {inl : Inline} (hb : isBreak inl = true)
    (st : Region × List (Str × Str × Str) × Line) :
    (paraStep st inl).1.suffix = st.1.suffix ∧ (paraStep st inl).2.1 = st.2.1 := by
  obtain ⟨r, defs, curr⟩ := st
  cases inl <;> simp [isBreak] at hb <;> exact ⟨rfl, rfl⟩

theorem paraStep_not_break {inl : Inline} (hb : isBreak inl = false)
    (st : Region × List (Str × Str × Str) × Line) :
    paraStep st inl = paraOther st inl := by
  cases inl <;> first | rfl | exact Bool.noConfusion hb

theorem raw_defs_cons_break {inl : Inline} (hb : isBreak inl = true)
    (rest : List Inline) :
    paragraph_raw_defs (inl :: rest) = paragraph_raw_defs rest := by
  cases inl <;> simp [isBreak] at hb <;> rfl

theorem raw_defs_cons_not_break {inl : Inline} (hb : isBreak inl = false)
    (rest : List Inline) :
    paragraph_raw_defs (inl :: rest)
      = ((append_inline_to_line Line.new inl).2).toList ++ paragraph_raw_defs rest := by
  cases inl <;> first
    | exact Bool.noConfusion hb
    | (rw [paragraph_raw_defs, List.filterMap_cons]
       cases hd : (append_inline_to_line Line.new _).2 <;>
         simp [paragraph_raw_defs, hd])

theorem paraFold_state (p : List Inline) :
    ∀ st : Region × List (Str × Str × Str) × Line, st.1.suffix = [] →
      (p.foldl paraStep st).1.suffix = []
      ∧ (p.foldl paraStep st).2.1 = (paragraph_raw_defs p).foldl dedupStep st.2.1 := by
  induction p with
  | nil =>
      intro st h
      exact ⟨h, by simp [paragraph_raw_defs]⟩
  | cons i rest ih =>
      intro st h
      rw [List.foldl_cons]
      cases hbr : isBreak i with
      | true =>
          obtain ⟨hs, hd⟩ := paraStep_break hbr st
          obtain ⟨ih1, ih2⟩ := ih (paraStep st i) (by rw [hs, h])
          refine ⟨ih1, ?_⟩
          rw [ih2, hd, raw_defs_cons_break hbr]
      | false =>
          rw [paraStep_not_break hbr st]
          rw [raw_defs_cons_not_break hbr]
          have hsuf : (paraOther st i).1.suffix = st.1.suffix :=
            paraPushParts_suffix _ _ _
          obtain ⟨ih1, ih2⟩ := ih (paraOther st i) (hsuf.trans h)
          refine ⟨ih1, ?_⟩
          rw [ih2]
          have h21 : (paraOther st i).2.1
              = (match (append_inline_to_line Line.new i).2 with
                 | some d => dedupStep st.2.1 d
                 | none => st.2.1) := rfl
          rw [h21]
          cases hd : (append_inline_to_line Line.new i).2 <;> simp

theorem suffix_fold_defs (ds : List (Str × Str × Str)) :
    ∀ r : Region,
      (ds.foldl (fun r d => r.push_back_suffix_line (Line.from_str (fmtDef d))) r).suffix
        = r.suffix ++ ds.map (fun d => Line.from_str (fmtDef d)) := by
  induction ds with
  | nil => intro r; simp
  | cons d rest ih =>
      intro r
      rw [List.foldl_cons, ih]
      simp [Region.push_back_suffix_line]

theorem dedupGo_nodup (ds : List (Str × Str × Str)) :
    ∀ acc, (acc.map (·.1)).Nodup → ((ds.foldl dedupStep acc).map (·.1)).Nodup := by
  induction ds with
  | nil => intro acc h; exact h
  | cons d rest ih =>
      intro acc h
      rw [List.foldl_cons]
      refine ih (dedupStep acc d) ?_
      rw [dedupStep]
      split
      · exact h
      · rename_i hany
        rw [List.map_append]
        simp only [List.map_cons, List.map_nil]
        rw [List.nodup_append]
        refine ⟨h, List.nodup_singleton _, ?_⟩
        intro x hx
        simp only [List.mem_map] at hx
        obtain ⟨e, he, hex⟩ := hx
        simp only [List.mem_singleton]
        intro hxd
        exact hany (List.any_eq_true.mpr ⟨e, he, by simp [hex, hxd]⟩)

theorem dedupGo_find (ds : List (Str × Str × Str)) :
    ∀ (acc : List (Str × Str × Str)) (id : Str),
      (ds.foldl dedupStep acc).find? (fun d => d.1 == id)
        = ((acc.find? (fun d => d.1 == id)).or (ds.find? (fun d => d.1 == id))) := by
  induction ds with
  | nil => intro acc id; simp
  | cons d rest ih =>
      intro acc id
      rw [List.foldl_cons, ih]
      rw [dedupStep]
      split
      · rename_i hany
        by_cases hq : d.1 = id
        · obtain ⟨e, he, hed⟩ := List.any_eq_true.mp hany
          have hed' : e.1 = d.1 := by simpa using hed
          have hacc : (acc.find? (fun d => d.1 == id)).isSome := by
            rw [List.find?_isSome]
            exact ⟨e, he, by simp [hed', hq]⟩
          obtain ⟨v, hv⟩ := Option.isSome_iff_exists.mp hacc
          rw [hv]
          rfl
        · have : (List.find? (fun d => d.1 == id) (d :: rest))
              = List.find? (fun d => d.1 == id) rest := by
            rw [List.find?_cons_of_neg]
            simp [hq]
          rw [this]
      · rw [List.find?_append, Option.or_assoc]
        congr 1
        by_cases hq : d.1 = id
        · simp [List.find?_cons, hq]
        · simp [List.find?_cons, hq]

theorem render_paragraph_suffix (p : List Inline) :
    (render_paragraph p).suffix
      = (dedupFirstDefs (paragraph_raw_defs p)).map (fun d => Line.from_str (fmtDef d)) := by
  obtain ⟨h1, h2⟩ := paraFold_state p (Region.new, [], Line.new) rfl
  unfold render_paragraph
  rw [suffix_fold_defs]
  rw [h2]
  have hsuf : ∀ (r : Region) (b : Prop) [Decidable b],
      (if b then r.push_back_line (Line.from_str []) else r).suffix = r.suffix := by
    intro r b _
    split <;> rfl
  rw [hsuf, Region.suffix_push_back_line, h1]
  simp [dedupFirstDefs]

/-- Claim C5: within one rendered paragraph region, the deferred
reference-definition lines are exactly the id-deduplicated definitions of
the paragraph's reference links/images, emitted once each after the main
content (as the region's suffix); the ids are pairwise distinct and each
id's emitted destination/title is the first occurrence's. -/
theorem C5_reference_dedup (p : List Inline) :
    (render_paragraph p).suffix
      = (dedupFirstDefs (paragraph_raw_defs p)).map (fun d => Line.from_str (fmtDef d))
    ∧ ((dedupFirstDefs (paragraph_raw_defs p)).map (·.1)).Nodup
    ∧ ∀ id : Str, (dedupFirstDefs (paragraph_raw_defs p)).find? (fun d => d.1 == id)
        = (paragraph_raw_defs p).find? (fun d => d.1 == id) := by
  refine ⟨render_paragraph_suffix p, dedupGo_nodup _ [] (by simp), ?_⟩
  intro id
  rw [dedupFirstDefs, dedupGo_find]
  simp

/-! ## Claim C7: root-level block separation -/

theorem lines_fold_out (ls : List Line) :
    ∀ out : Str,
      ls.foldl (fun out ln => out ++ ln.apply ++ ['\n']) out
        = out ++ ls.foldl (fun out ln => out ++ ln.apply ++ ['\n']) [] := by
  induction ls with
  | nil => intro out; simp
  | cons l rest ih =>
      intro out
      rw [List.foldl_cons, List.foldl_cons, ih, ih (([] : Str) ++ l.apply ++ ['\n'])]
      simp

theorem lines_fold_flatten (ls : List Line) :
    ls.foldl (fun out ln => out ++ ln.apply ++ ['\n']) []
      = (ls.map (fun ln => ln.apply ++ ['\n'])).flatten := by
  induction ls with
  | nil => rfl
  | cons l rest ih =>
      rw [List.foldl_cons, lines_fold_out, ih]
      simp

theorem block_out_text_eq (b : Block) :
    block_out_text b
      = ((block_to_region b).into_lines.map (fun ln => ln.apply ++ ['\n'])).flatten :=
  lines_fold_flatten _

theorem bm_fold_false (bs : List Block) :
    ∀ acc : Str,
      (bs.foldl bmStep (acc, false)).1
        = acc ++ (bs.map (fun b => str "\n\n" ++ block_out_text b)).flatten := by
  induction bs with
  | nil => intro acc; simp
  | cons b rest ih =>
      intro acc
      rw [List.foldl_cons]
      have hstep : bmStep (acc, false) b
          = (acc ++ str "\n\n" ++ block_out_text b, false) := by
        show ((block_to_region b).into_lines.foldl
            (fun out ln => out ++ ln.apply ++ ['\n']) (acc ++ str "\n\n"), false) = _
        rw [lines_fold_out]
        rfl
      rw [hstep, ih]
      simp [List.flatten_cons]

theorem joinSep_cons_map (sep : Str) (x : Str) (xs : List Str) :
    joinSep sep (x :: xs) = x ++ (xs.map (fun y => sep ++ y)).flatten := by
  induction xs generalizing x with
  | nil => simp [joinSep]
  | cons y ys ih =>
      rw [joinSep_cons_cons, ih y]
      simp

theorem blocks_to_markdown_eq (bs : List Block) :
    blocks_to_markdown bs = joinSep (str "\n\n") (bs.map block_out_text) := by
  cases bs with
  | nil => rfl
  | cons b rest =>
      rw [blocks_to_markdown, List.foldl_cons]
      have hstep : bmStep ([], true) b = (block_out_text b, false) := rfl
      rw [hstep, bm_fold_false, List.map_cons, joinSep_cons_map, List.map_map]
      rfl

theorem block_to_region_rule : block_to_region .rule = render_rule := by
  rw [block_to_region]

theorem blocks_to_markdown_rules :
    blocks_to_markdown [.rule, .rule] = str "---\n\n\n---\n" := by
  rw [blocks_to_markdown_eq]
  have hr : block_out_text .rule = str "---\n" := by
    have h0 : block_out_text Block.rule
        = (block_to_region Block.rule).into_lines.foldl
            (fun out ln => out ++ ln.apply ++ ['\n']) [] := rfl
    rw [h0, block_to_region_rule]
    rfl
  rw [List.map_cons, List.map_cons, List.map_nil, hr]
  rfl

/-- Claim C7 counterexample: two root `Rule` blocks render with two blank
lines between them (`"---\n\n\n---\n"`), not exactly one as claimed. -/
theorem C7_counterexample :
    splitChar '\n' (blocks_to_markdown [.rule, .rule])
      = [str "---", [], [], str "---", []]
    ∧ splitChar '\n' (blocks_to_markdown [.rule, .rule])
      ≠ [str "---", [], str "---", []] := by
  rw [blocks_to_markdown_rules]
  exact ⟨by decide, by decide⟩

/-- Claim C7 (amended): `blocks_to_markdown` joins the rendered regions of
sibling root blocks with a `"\n\n"` separator, each region line already
terminated by `'\n'` — so consecutive non-empty blocks are separated by two
blank lines; concretely two rules render as `"---\n\n\n---\n"`. -/
theorem C7_block_separation :
    (∀ bs : List Block,
      blocks_to_markdown bs = joinSep (str "\n\n") (bs.map block_out_text))
    ∧ (∀ b : Block,
        block_out_text b
          = ((block_to_region b).into_lines.map (fun ln => ln.apply ++ ['\n'])).flatten)
    ∧ blocks_to_markdown [.rule, .rule] = str "---\n\n\n---\n" :=
  ⟨blocks_to_markdown_eq, block_out_text_eq, blocks_to_markdown_rules⟩

/-! ## Claim C2: re-parsing re-emitted events -/

theorem listItems_map_item (items : List (List Block)) :
    listItems (items.map Block.item) = items := by
  rw [listItems, List.map_map]
  have : ∀ x ∈ items, ((fun b : Block =>
      match b with
      | .item children => children
      | other => [other]) ∘ Block.item) x = id x := by
    intro x _
    rfl
  rw [List.map_congr_left this, List.map_id]

theorem stackOK_dest (fs : List Frame) (out bs : List Block) (h : stackOK fs = true) :
    stackOK (appendBlocksDest fs out bs).stack = true := by
  cases fs with
  | nil => rfl
  | cons top below => simpa [appendBlocksDest, stackOK] using h

mutual

theorem reparse_inline (i : Inline) (h : reparsableI i = true) :
    ∀ (f : Frame) (below : List Frame) (out : List Block), f.collect_inlines = true →
      (inline_to_events i).foldl parseStep ⟨f :: below, out⟩
        = ⟨{ f with inlines := f.inlines ++ [i] } :: below, out⟩ := by
  match i with
  | .text r =>
      intro f below out hf
      rw [reparsableI, Bool.and_eq_true, beq_iff_eq, beq_iff_eq] at h
      rw [inline_to_events, h.1]
      have h1 : textParts [r.apply] = [.text r.apply] := rfl
      rw [h1, List.foldl_cons, List.foldl_nil]
      simp [parseStep, placeLeafPerFlag, hf, h.2]
  | .code r =>
      intro f below out hf
      rw [reparsableI, beq_iff_eq] at h
      rw [inline_to_events, List.foldl_cons, List.foldl_nil]
      simp [parseStep, placeLeafPerFlag, hf, h]
  | .inlineHtml r =>
      intro f below out hf
      rw [reparsableI, beq_iff_eq] at h
      rw [inline_to_events, List.foldl_cons, List.foldl_nil]
      simp [parseStep, placeLeafInline, h]
  | .html r =>
      intro f below out hf
      rw [reparsableI, beq_iff_eq] at h
      rw [inline_to_events, List.foldl_cons, List.foldl_nil]
      simp [parseStep, hf, h]
  | .softBreak =>
      intro f below out hf
      rw [inline_to_events, List.foldl_cons, List.foldl_nil]
      simp [parseStep, placeLeafPerFlag, hf]
  | .hardBreak =>
      intro f below out hf
      rw [inline_to_events, List.foldl_cons, List.foldl_nil]
      simp [parseStep, placeLeafPerFlag, hf]
  | .emphasis children =>
      intro f below out hf
      rw [reparsableI] at h
      rw [inline_to_events]
      simp only [List.foldl_append, List.foldl_cons, List.foldl_nil]
      rw [show parseStep ⟨f :: below, out⟩ (.start .emphasis)
          = ⟨⟨.emphasis, [], [], true⟩ :: f :: below, out⟩ from rfl]
      rw [reparse_inlines children h ⟨.emphasis, [], [], true⟩ (f :: below) out rfl]
      simp [parseStep, endFrameNode, placeEnd, hf]
  | .strong children =>
      intro f below out hf
      rw [reparsableI] at h
      rw [inline_to_events]
      simp only [List.foldl_append, List.foldl_cons, List.foldl_nil]
      rw [show parseStep ⟨f :: below, out⟩ (.start .strong)
          = ⟨⟨.strong, [], [], true⟩ :: f :: below, out⟩ from rfl]
      rw [reparse_inlines children h ⟨.strong, [], [], true⟩ (f :: below) out rfl]
      simp [parseStep, endFrameNode, placeEnd, hf]
  | .strikethrough children =>
      intro f below out hf
      rw [reparsableI] at h
      rw [inline_to_events]
      simp only [List.foldl_append, List.foldl_cons, List.foldl_nil]
      rw [show parseStep ⟨f :: below, out⟩ (.start .strikethrough)
          = ⟨⟨.strikethrough, [], [], true⟩ :: f :: below, out⟩ from rfl]
      rw [reparse_inlines children h ⟨.strikethrough, [], [], true⟩ (f :: below) out rfl]
      simp [parseStep, endFrameNode, placeEnd, hf]
  | .subscript children =>
      intro f below out hf
      rw [reparsableI] at h
      rw [inline_to_events]
      simp only [List.foldl_append, List.foldl_cons, List.foldl_nil]
      rw [show parseStep ⟨f :: below, out⟩ (.start .subscript)
          = ⟨⟨.subscript, [], [], true⟩ :: f :: below, out⟩ from rfl]
      rw [reparse_inlines children h ⟨.subscript, [], [], true⟩ (f :: below) out rfl]
      simp [parseStep, endFrameNode, placeEnd, hf]
  | .superscript children =>
      intro f below out hf
      rw [reparsableI] at h
      rw [inline_to_events]
      simp only [List.foldl_append, List.foldl_cons, List.foldl_nil]
      rw [show parseStep ⟨f :: below, out⟩ (.start .superscript)
          = ⟨⟨.superscript, [], [], true⟩ :: f :: below, out⟩ from rfl]
      rw [reparse_inlines children h ⟨.superscript, [], [], true⟩ (f :: below) out rfl]
      simp [parseStep, endFrameNode, placeEnd, hf]
  | .link lt dest title id children =>
      intro f below out hf
      rw [reparsableI] at h
      rw [inline_to_events]
      simp only [List.foldl_append, List.foldl_cons, List.foldl_nil]
      rw [show parseStep ⟨f :: below, out⟩ (.start (.link lt dest title id))
          = ⟨⟨.link lt dest title id, [], [], true⟩ :: f :: below, out⟩ from rfl]
      rw [reparse_inlines children h ⟨.link lt dest title id, [], [], true⟩ (f :: below) out rfl]
      simp [parseStep, endFrameNode, placeEnd, hf]
  | .image lt dest title id children =>
      intro f below out hf
      rw [reparsableI] at h
      rw [inline_to_events]
      simp only [List.foldl_append, List.foldl_cons, List.foldl_nil]
      rw [show parseStep ⟨f :: below, out⟩ (.start (.image lt dest title id))
          = ⟨⟨.image lt dest title id, [], [], true⟩ :: f :: below, out⟩ from rfl]
      rw [reparse_inlines children h ⟨.image lt dest title id, [], [], true⟩ (f :: below) out rfl]
      simp [parseStep, endFrameNode, placeEnd, hf]
  | .footnoteReference sfr =>
      intro f below out hf
      rw [inline_to_events, List.foldl_cons, List.foldl_nil]
      simp [parseStep, placeLeafInline]
  | .inlineMath r =>
      intro f below out hf
      rw [reparsableI, beq_iff_eq] at h
      rw [inline_to_events, List.foldl_cons, List.foldl_nil]
      simp [parseStep, placeLeafInline, h]
  | .displayMath r =>
      intro f below out hf
      rw [reparsableI, beq_iff_eq] at h
      rw [inline_to_events, List.foldl_cons, List.foldl_nil]
      simp [parseStep, placeLeafInline, h]

theorem reparse_inlines (l : List Inline) (h : reparsableLI l = true) :
    ∀ (f : Frame) (below : List Frame) (out : List Block), f.collect_inlines = true →
      (inlines_to_events l).foldl parseStep ⟨f :: below, out⟩
        = ⟨{ f with inlines := f.inlines ++ l } :: below, out⟩ := by
  match l with
  | [] =>
      intro f below out hf
      rw [inlines_to_events, List.foldl_nil]
      simp
  | i :: rest =>
      intro f below out hf
      rw [reparsableLI, Bool.and_eq_true] at h
      rw [inlines_to_events, List.foldl_append]
      rw [reparse_inline i h.1 f below out hf]
      rw [reparse_inlines rest h.2 { f with inlines := f.inlines ++ [i] } below out hf]
      simp

theorem reparse_block (b : Block) (h : reparsableB b = true) :
    ∀ (fs : List Frame) (out : List Block), stackOK fs = true →
      (block_to_events b).foldl parseStep ⟨fs, out⟩ = appendBlocksDest fs out [b] := by
  match b with
  | .paragraph children =>
      intro fs out hOK
      rw [reparsableB] at h
      rw [block_to_events]
      simp only [List.foldl_append, List.foldl_cons, List.foldl_nil]
      rw [show parseStep ⟨fs, out⟩ (.start .paragraph)
          = ⟨⟨.paragraph, [], [], true⟩ :: fs, out⟩ from rfl]
      rw [reparse_inlines children h ⟨.paragraph, [], [], true⟩ fs out rfl]
      cases fs with
      | nil => simp [parseStep, endFrameNode, placeEnd, appendBlocksDest]
      | cons parent below =>
          have hpc : parent.collect_inlines = false := by simpa [stackOK] using hOK
          simp [parseStep, endFrameNode, placeEnd, appendBlocksDest, hpc]
  | .heading level id classes attrs children =>
      intro fs out hOK
      rw [reparsableB, Bool.and_eq_true, Bool.and_eq_true] at h
      obtain ⟨⟨hcl, hat⟩, hch⟩ := h
      rw [List.isEmpty_iff] at hcl hat
      subst hcl hat
      rw [block_to_events]
      simp only [List.foldl_append, List.foldl_cons, List.foldl_nil]
      rw [show parseStep ⟨fs, out⟩ (.start (.heading level id [] []))
          = ⟨⟨.heading level id [] [], [], [], true⟩ :: fs, out⟩ from rfl]
      rw [reparse_inlines children hch ⟨.heading level id [] [], [], [], true⟩ fs out rfl]
      cases fs with
      | nil => simp [parseStep, endFrameNode, placeEnd, appendBlocksDest]
      | cons parent below =>
          have hpc : parent.collect_inlines = false := by simpa [stackOK] using hOK
          simp [parseStep, endFrameNode, placeEnd, appendBlocksDest, hpc]
  | .blockQuote children =>
      intro fs out hOK
      rw [reparsableB] at h
      rw [block_to_events]
      simp only [List.foldl_append, List.foldl_cons, List.foldl_nil]
      rw [show parseStep ⟨fs, out⟩ (.start (.blockQuote none))
          = ⟨⟨.blockQuote none, [], [], false⟩ :: fs, out⟩ from rfl]
      rw [reparse_blocks children h (⟨.blockQuote none, [], [], false⟩ :: fs) out rfl]
      rw [show appendBlocksDest (⟨.blockQuote none, [], [], false⟩ :: fs) out children
          = ⟨⟨.blockQuote none, [], [] ++ children, false⟩ :: fs, out⟩ from rfl]
      cases fs with
      | nil => simp [parseStep, endFrameNode, placeEnd, appendBlocksDest]
      | cons parent below =>
          have hpc : parent.collect_inlines = false := by simpa [stackOK] using hOK
          simp [parseStep, endFrameNode, placeEnd, appendBlocksDest, hpc]
  | .codeBlock kind content =>
      intro fs out hOK
      rw [reparsableB, beq_iff_eq] at h
      rw [block_to_events, List.foldl_cons, List.foldl_cons, List.foldl_cons, List.foldl_nil]
      rw [show parseStep ⟨fs, out⟩ (.start (.codeBlock kind))
          = ⟨⟨.codeBlock kind, [], [], false⟩ :: fs, out⟩ from rfl]
      rw [show parseStep ⟨⟨.codeBlock kind, [], [], false⟩ :: fs, out⟩ (.text content.apply)
          = ⟨⟨.codeBlock kind, [],
              [.paragraph [.text (Region.from_str content.apply)]], false⟩ :: fs, out⟩ from rfl]
      rw [h]
      have h3 : codeBlockText [.paragraph [.text content]] = content.apply := by
        simp [codeBlockText]
      cases fs with
      | nil => simp [parseStep, endFrameNode, placeEnd, appendBlocksDest, h3, h]
      | cons parent below =>
          have hpc : parent.collect_inlines = false := by simpa [stackOK] using hOK
          simp [parseStep, endFrameNode, placeEnd, appendBlocksDest, hpc, h3, h]
  | .htmlBlock r =>
      intro fs out hOK
      rw [reparsableB, beq_iff_eq] at h
      rw [block_to_events, List.foldl_cons, List.foldl_nil]
      cases fs with
      | nil => simp [parseStep, appendBlocksDest, h]
      | cons parent below =>
          have hpc : parent.collect_inlines = false := by simpa [stackOK] using hOK
          simp [parseStep, appendBlocksDest, hpc, h]
  | .list start items =>
      intro fs out hOK
      rw [reparsableB] at h
      rw [block_to_events]
      simp only [List.foldl_append, List.foldl_cons, List.foldl_nil]
      rw [show parseStep ⟨fs, out⟩ (.start (.list start))
          = ⟨⟨.list start, [], [], false⟩ :: fs, out⟩ from rfl]
      rw [reparse_items items h ⟨.list start, [], [], false⟩ fs out rfl]
      cases fs with
      | nil =>
          simp [parseStep, endFrameNode, placeEnd, appendBlocksDest, listItems_map_item]
      | cons parent below =>
          have hpc : parent.collect_inlines = false := by simpa [stackOK] using hOK
          simp [parseStep, endFrameNode, placeEnd, appendBlocksDest, hpc, listItems_map_item]
  | .item children =>
      intro fs out hOK
      rw [reparsableB] at h
      rw [block_to_events]
      simp only [List.foldl_append, List.foldl_cons, List.foldl_nil]
      rw [show parseStep ⟨fs, out⟩ (.start .item)
          = ⟨⟨.item, [], [], false⟩ :: fs, out⟩ from rfl]
      rw [reparse_blocks children h (⟨.item, [], [], false⟩ :: fs) out rfl]
      rw [show appendBlocksDest (⟨.item, [], [], false⟩ :: fs) out children
          = ⟨⟨.item, [], [] ++ children, false⟩ :: fs, out⟩ from rfl]
      cases fs with
      | nil => simp [parseStep, endFrameNode, placeEnd, appendBlocksDest]
      | cons parent below =>
          have hpc : parent.collect_inlines = false := by simpa [stackOK] using hOK
          simp [parseStep, endFrameNode, placeEnd, appendBlocksDest, hpc]
  | .rule =>
      intro fs out hOK
      rw [block_to_events, List.foldl_cons, List.foldl_nil]
      cases fs with
      | nil => simp [parseStep, appendBlocksDest]
      | cons parent below =>
          have hpc : parent.collect_inlines = false := by simpa [stackOK] using hOK
          simp [parseStep, appendBlocksDest, hpc]
  | .footnoteDefinition label children =>
      intro fs out hOK
      rw [reparsableB] at h
      rw [block_to_events]
      simp only [List.foldl_append, List.foldl_cons, List.foldl_nil]
      rw [show parseStep ⟨fs, out⟩ (.start (.footnoteDefinition label))
          = ⟨⟨.footnoteDefinition label, [], [], false⟩ :: fs, out⟩ from rfl]
      rw [reparse_blocks children h (⟨.footnoteDefinition label, [], [], false⟩ :: fs) out rfl]
      rw [show appendBlocksDest (⟨.footnoteDefinition label, [], [], false⟩ :: fs) out children
          = ⟨⟨.footnoteDefinition label, [], [] ++ children, false⟩ :: fs, out⟩ from rfl]
      cases fs with
      | nil => simp [parseStep, endFrameNode, placeEnd, appendBlocksDest]
      | cons parent below =>
          have hpc : parent.collect_inlines = false := by simpa [stackOK] using hOK
          simp [parseStep, endFrameNode, placeEnd, appendBlocksDest, hpc]
  | .table aligns => exact absurd h (by simp [reparsableB])
  | .tableRow cells => exact absurd h (by simp [reparsableB])
  | .tableFull aligns rows => exact absurd h (by simp [reparsableB])

theorem reparse_blocks (bs : List Block) (h : reparsableLB bs = true) :
    ∀ (fs : List Frame) (out : List Block), stackOK fs = true →
      (blocks_to_events bs).foldl parseStep ⟨fs, out⟩ = appendBlocksDest fs out bs := by
  match bs with
  | [] =>
      intro fs out hOK
      rw [blocks_to_events, List.foldl_nil]
      cases fs with
      | nil => simp [appendBlocksDest]
      | cons top below => simp [appendBlocksDest]
  | b :: rest =>
      intro fs out hOK
      rw [reparsableLB, Bool.and_eq_true] at h
      rw [blocks_to_events, List.foldl_append]
      rw [reparse_block b h.1 fs out hOK]
      cases fs with
      | nil =>
          rw [show appendBlocksDest [] out [b] = ⟨[], out ++ [b]⟩ from rfl]
          rw [reparse_blocks rest h.2 [] (out ++ [b]) rfl]
          simp [appendBlocksDest]
      | cons top below =>
          rw [show appendBlocksDest (top :: below) out [b]
              = ⟨{ top with blocks := top.blocks ++ [b] } :: below, out⟩ from rfl]
          rw [reparse_blocks rest h.2 ({ top with blocks := top.blocks ++ [b] } :: below) out
            (by simpa [stackOK] using hOK)]
          simp [appendBlocksDest]

theorem reparse_items (items : List (List Block)) (h : reparsableItems items = true) :
    ∀ (f : Frame) (below : List Frame) (out : List Block), f.collect_inlines = false →
      (items_to_events items).foldl parseStep ⟨f :: below, out⟩
        = ⟨{ f with blocks := f.blocks ++ items.map Block.item } :: below, out⟩ := by
  match items with
  | [] =>
      intro f below out hf
      rw [items_to_events, List.foldl_nil]
      simp
  | item :: rest =>
      intro f below out hf
      rw [reparsableItems, Bool.and_eq_true] at h
      rw [items_to_events]
      simp only [List.foldl_append, List.foldl_cons, List.foldl_nil]
      rw [show parseStep ⟨f :: below, out⟩ (.start .item)
          = ⟨⟨.item, [], [], false⟩ :: f :: below, out⟩ from rfl]
      rw [reparse_blocks item h.1 (⟨.item, [], [], false⟩ :: f :: below) out rfl]
      rw [show appendBlocksDest (⟨.item, [], [], false⟩ :: f :: below) out item
          = ⟨⟨.item, [], [] ++ item, false⟩ :: f :: below, out⟩ from rfl]
      rw [show parseStep ⟨⟨.item, [], [] ++ item, false⟩ :: f :: below, out⟩ (.endTag .item)
          = ⟨{ f with blocks := f.blocks ++ [.item item] } :: below, out⟩ from
        by simp [parseStep, endFrameNode, placeEnd, hf]]
      rw [reparse_items rest h.2 { f with blocks := f.blocks ++ [.item item] } below out hf]
      simp

end

/-- C2 (counterexample): `block_to_events` is not faithful on every variant.
`TableFull` emits no events at all, so re-parsing yields `[]`, not the
original single-block tree; and a heading's classes are dropped, so a
heading with a non-empty class list does not round-trip either. -/
theorem C2_counterexample :
    parse_events_to_blocks (block_to_events (Block.tableFull [] []))
        ≠ [Block.tableFull [] []] ∧
    parse_events_to_blocks (block_to_events
          (Block.heading .h1 none [str "c"] [] []))
        ≠ [Block.heading .h1 none [str "c"] [] []] := by
  constructor
  · rw [show parse_events_to_blocks (block_to_events (Block.tableFull [] [])) = [] from rfl]
    simp
  · rw [show parse_events_to_blocks (block_to_events (Block.heading .h1 none [str "c"] [] []))
        = [Block.heading .h1 none [] [] []] from rfl]
    simp

/-- C2 (amended): tree re-emission faithfulness on the re-parsable fragment.
For every `Block` whose variants all re-emit their content — no `Table`,
`TableRow` or `TableFull` anywhere, headings carry no classes or attrs, and
every text/code/html region is in the normal form produced by
`Region::from_str` of its own text (with inline text single-line) —
running `parse_events_to_blocks` on `block_to_events b` returns exactly
`[b]`.  The claim's universal form over all variants is refuted by
`C2_counterexample`. -/
theorem C2_tree_reemission (b : Block) (h : reparsableB b = true) :
    parse_events_to_blocks (block_to_events b) = [b] := by
  rw [parse_events_to_blocks, reparse_block b h [] [] rfl]
  rfl

/-- C2 witness: a concrete paragraph block round-trips through events. -/
theorem C2_tree_reemission_witness :
    reparsableB (Block.paragraph [.text (Region.from_str (str "hi"))]) = true ∧
    parse_events_to_blocks (block_to_events
        (Block.paragraph [.text (Region.from_str (str "hi"))]))
      = [Block.paragraph [.text (Region.from_str (str "hi"))]] :=
  ⟨by decide, C2_tree_reemission _ (by decide)⟩

/-! ## Claim C1: event-level round trip on the modelled tokenizer output -/

theorem splitChar_append_cons (c : Char) (l s : Str) (h : l.contains c = false) :
    splitChar c (l ++ c :: s) = l :: splitChar c s := by
  induction l with
  | nil => simp [splitChar]
  | cons a rest ih =>
      simp only [List.contains_cons, Bool.or_eq_false_iff, beq_eq_false_iff_ne] at h
      rw [List.cons_append, splitChar, if_neg (fun hac => h.1 hac.symm), ih h.2]

theorem tlineOK_not_contains {l : Str} (h : tlineOK l = true) : l.contains '\n' = false := by
  rw [tlineOK, Bool.and_eq_true, Bool.not_eq_true'] at h
  exact h.1

theorem tlineOK_not_blank {l : Str} (h : tlineOK l = true) : trimIsEmpty l = false := by
  rw [tlineOK, Bool.and_eq_true] at h
  simpa using h.2

theorem tlineOK_ne_nil {l : Str} (h : tlineOK l = true) : l ≠ [] := by
  intro he
  subst he
  exact Bool.noConfusion (tlineOK_not_blank h)

theorem codeLinesText_cons (l : Str) (rest : List Str) :
    codeLinesText (l :: rest) = (l ++ ['\n']) ++ codeLinesText rest := by
  simp [codeLinesText]

theorem splitChar_codeLines (ls : List Str) (h : ls.all tlineOK = true) :
    splitChar '\n' (codeLinesText ls) = ls ++ [[]] := by
  induction ls with
  | nil => rfl
  | cons l rest ih =>
      rw [List.all_cons, Bool.and_eq_true] at h
      rw [codeLinesText_cons, List.append_assoc, List.singleton_append,
        splitChar_append_cons '\n' l _ (tlineOK_not_contains h.1), ih h.2,
        List.cons_append]

theorem codeLinesText_form (l : Str) (rest : List Str) :
    codeLinesText (l :: rest)
      = l ++ ((rest.map (fun x => '\n' :: x)).flatten ++ ['\n']) := by
  induction rest generalizing l with
  | nil => simp [codeLinesText]
  | cons r rest' ih =>
      rw [codeLinesText_cons, ih r]
      simp

theorem collapseBlankGo_nonblank (ls : List Str) :
    ∀ (res : Str), ls.all tlineOK = true → res ≠ [] →
      collapseBlankGo res false (ls ++ [[]])
        = res ++ (ls.map (fun l => '\n' :: l)).flatten ++ ['\n'] := by
  induction ls with
  | nil =>
      intro res _ hres
      obtain ⟨a, res', rfl⟩ : ∃ a res', res = a :: res' := by
        cases res with
        | nil => exact absurd rfl hres
        | cons a res' => exact ⟨a, res', rfl⟩
      simp [collapseBlankGo, trimIsEmpty]
  | cons l rest ih =>
      intro res hall hres
      rw [List.all_cons, Bool.and_eq_true] at hall
      obtain ⟨a, res', rfl⟩ : ∃ a res', res = a :: res' := by
        cases res with
        | nil => exact absurd rfl hres
        | cons a res' => exact ⟨a, res', rfl⟩
      rw [List.cons_append, collapseBlankGo,
        if_neg (by rw [tlineOK_not_blank hall.1]; exact Bool.noConfusion)]
      rw [show (if (a :: res' : Str).isEmpty then (a :: res' : Str)
          else (a :: res') ++ ['\n']) = (a :: res') ++ ['\n'] from rfl]
      rw [ih _ hall.2 (by simp)]
      simp

theorem collapseBlank_codeLines (l : Str) (rest : List Str)
    (h : (l :: rest).all tlineOK = true) :
    collapseBlank (codeLinesText (l :: rest)) = codeLinesText (l :: rest) := by
  have hl : tlineOK l = true := by
    rw [List.all_cons, Bool.and_eq_true] at h
    exact h.1
  have hrest : rest.all tlineOK = true := by
    rw [List.all_cons, Bool.and_eq_true] at h
    exact h.2
  have hform := codeLinesText_form l rest
  have hgo : collapseBlankGo [] false ((l :: rest) ++ [[]])
      = l ++ (rest.map (fun x => '\n' :: x)).flatten ++ ['\n'] := by
    rw [List.cons_append, collapseBlankGo,
      if_neg (by rw [tlineOK_not_blank hl]; exact Bool.noConfusion)]
    rw [show ((if ([] : Str).isEmpty then ([] : Str) else [] ++ ['\n']) ++ l) = l from by simp]
    exact collapseBlankGo_nonblank rest l hrest (tlineOK_ne_nil hl)
  have hres_ends : endsWith (l ++ (rest.map (fun x => '\n' :: x)).flatten ++ ['\n']) '\n'
      = true := by
    rw [endsWith, List.append_assoc, ← List.append_assoc, List.getLast?_concat]
    rfl
  rw [collapseBlank, splitChar_codeLines _ h, hgo]
  rw [hform]
  rw [show l ++ ((rest.map (fun x => '\n' :: x)).flatten ++ ['\n'])
      = l ++ (rest.map (fun x => '\n' :: x)).flatten ++ ['\n'] from by simp]
  rw [hres_ends]
  simp

theorem collapseBlank_line (l : Str) (h : tlineOK l = true) :
    collapseBlank (l ++ ['\n']) = l ++ ['\n'] := by
  have h2 := collapseBlank_codeLines l [] (by simpa using h)
  rw [codeLinesText_cons] at h2
  simpa [codeLinesText] using h2

theorem normStep_flag (st : Bool × List Event) (e : Event) (h : noCB e = true) :
    (normStep st e).1 = st.1 := by
  cases e <;>
    first
      | rfl
      | (rename_i t
         cases t <;> first | rfl | exact Bool.noConfusion h)

theorem normFold_flag (evts : List Event) :
    ∀ (st : Bool × List Event), evts.all noCB = true →
      (evts.foldl normStep st).1 = st.1 := by
  induction evts with
  | nil => intro st _; rfl
  | cons e rest ih =>
      intro st h
      rw [List.all_cons, Bool.and_eq_true] at h
      rw [List.foldl_cons, ih _ h.2, normStep_flag st e h.1]

theorem pair_eq_of_fst {p : Bool × List Event} (h : p.1 = false) : p = (false, p.2) := by
  obtain ⟨a, b⟩ := p
  simp only at h
  rw [h]

theorem normFold_noCB_exists (evts : List Event) (out : List Event)
    (h : evts.all noCB = true) :
    ∃ out2, evts.foldl normStep (false, out) = (false, out2) :=
  ⟨(evts.foldl normStep (false, out)).2, pair_eq_of_fst (normFold_flag evts (false, out) h)⟩

mutual

theorem ti_noCB (i : TInline) : (tiEvents i).all noCB = true := by
  match i with
  | .ttext s => rfl
  | .tcode s => rfl
  | .tsoftBreak => rfl
  | .thardBreak => rfl
  | .temphasis c => simp [tiEvents, noCB, tis_noCB c]
  | .tstrong c => simp [tiEvents, noCB, tis_noCB c]
  | .tlink lt d t id c => simp [tiEvents, noCB, tis_noCB c]
  | .timage lt d t id c => simp [tiEvents, noCB, tis_noCB c]

theorem tis_noCB (c : TInlines) : (tisEvents c).all noCB = true := by
  match c with
  | .nil => rfl
  | .cons i rest => simp [tisEvents, ti_noCB i, tis_noCB rest]

end

mutual

theorem tinline_events_eq (i : TInline) (h : tiValid i = true) :
    inline_to_events (decodeI i) = tiEvents i := by
  match i with
  | .ttext s =>
      rw [tiValid, Bool.not_eq_true'] at h
      rw [decodeI, inline_to_events, Region.apply_from_str, splitChar_of_not_contains h]
      rfl
  | .tcode s =>
      rw [decodeI, inline_to_events, Region.apply_from_str]
      rfl
  | .tsoftBreak => rfl
  | .thardBreak => rfl
  | .temphasis c =>
      rw [tiValid] at h
      rw [decodeI, inline_to_events, tinlines_events_eq c h]
      rfl
  | .tstrong c =>
      rw [tiValid] at h
      rw [decodeI, inline_to_events, tinlines_events_eq c h]
      rfl
  | .tlink lt d t id c =>
      rw [tiValid] at h
      rw [decodeI, inline_to_events, tinlines_events_eq c h]
      rfl
  | .timage lt d t id c =>
      rw [tiValid] at h
      rw [decodeI, inline_to_events, tinlines_events_eq c h]
      rfl

theorem tinlines_events_eq (c : TInlines) (h : tisValid c = true) :
    inlines_to_events (decodeLI c) = tisEvents c := by
  match c with
  | .nil => rfl
  | .cons i rest =>
      rw [tisValid, Bool.and_eq_true] at h
      rw [decodeLI, inlines_to_events, tinline_events_eq i h.1, tinlines_events_eq rest h.2,
        tisEvents]

end

theorem normAppendText_concat (pre : List Event) (t0 txt : Str) :
    normAppendText (pre ++ [Event.text t0]) txt = pre ++ [Event.text (t0 ++ txt)] := by
  rw [normAppendText, List.getLast?_concat]
  rw [show (match some (Event.text t0) with
      | some (.text prev) => (pre ++ [Event.text t0]).dropLast ++ [Event.text (prev ++ txt)]
      | _ => (pre ++ [Event.text t0]) ++ [Event.text txt])
      = (pre ++ [Event.text t0]).dropLast ++ [Event.text (t0 ++ txt)] from rfl]
  rw [List.dropLast_concat]

theorem norm_code_lines (ls : List Str) :
    ∀ (pre : List Event) (t0 : Str), ls.all tlineOK = true →
      (ls.map (fun l => Event.text (l ++ ['\n']))).foldl normStep
          (true, pre ++ [Event.text t0])
        = (true, pre ++ [Event.text (t0 ++ codeLinesText ls)]) := by
  induction ls with
  | nil =>
      intro pre t0 _
      simp [codeLinesText]
  | cons l rest ih =>
      intro pre t0 h
      rw [List.all_cons, Bool.and_eq_true] at h
      rw [List.map_cons, List.foldl_cons]
      rw [show normStep (true, pre ++ [Event.text t0]) (Event.text (l ++ ['\n']))
          = (true, normAppendText (pre ++ [Event.text t0]) (collapseBlank (l ++ ['\n'])))
          from rfl]
      rw [collapseBlank_line l h.1, normAppendText_concat]
      rw [ih pre (t0 ++ (l ++ ['\n'])) h.2, codeLinesText_cons]
      simp

theorem tcode_lines_fold (ls : List Str) :
    ∀ (f : Frame) (below : List Frame) (out : List Block), f.collect_inlines = false →
      (ls.map (fun l => Event.text (l ++ ['\n']))).foldl parseStep ⟨f :: below, out⟩
        = ⟨{ f with blocks := f.blocks
              ++ ls.map (fun l => Block.paragraph [.text (Region.from_str (l ++ ['\n']))]) }
            :: below, out⟩ := by
  induction ls with
  | nil =>
      intro f below out _
      simp
  | cons l rest ih =>
      intro f below out hf
      rw [List.map_cons, List.foldl_cons]
      rw [show parseStep ⟨f :: below, out⟩ (Event.text (l ++ ['\n']))
          = ⟨{ f with blocks := f.blocks
                ++ [.paragraph [.text (Region.from_str (l ++ ['\n']))]] } :: below, out⟩
          from by simp [parseStep, placeLeafPerFlag, hf]]
      rw [ih { f with blocks := f.blocks
            ++ [.paragraph [.text (Region.from_str (l ++ ['\n']))]] } below out hf]
      simp

theorem codeBlockText_lines (ls : List Str) :
    codeBlockText (ls.map (fun l => Block.paragraph [.text (Region.from_str (l ++ ['\n']))]))
      = codeLinesText ls := by
  induction ls with
  | nil => rfl
  | cons l rest ih =>
      rw [List.map_cons, codeLinesText_cons, ← ih]
      simp [codeBlockText, Region.apply_from_str]

mutual

theorem tparse_inline (i : TInline) :
    ∀ (f : Frame) (below : List Frame) (out : List Block), f.collect_inlines = true →
      (tiEvents i).foldl parseStep ⟨f :: below, out⟩
        = ⟨{ f with inlines := f.inlines ++ [decodeI i] } :: below, out⟩ := by
  match i with
  | .ttext s =>
      intro f below out hf
      rw [tiEvents, List.foldl_cons, List.foldl_nil]
      simp [parseStep, placeLeafPerFlag, hf, decodeI]
  | .tcode s =>
      intro f below out hf
      rw [tiEvents, List.foldl_cons, List.foldl_nil]
      simp [parseStep, placeLeafPerFlag, hf, decodeI]
  | .tsoftBreak =>
      intro f below out hf
      rw [tiEvents, List.foldl_cons, List.foldl_nil]
      simp [parseStep, placeLeafPerFlag, hf, decodeI]
  | .thardBreak =>
      intro f below out hf
      rw [tiEvents, List.foldl_cons, List.foldl_nil]
      simp [parseStep, placeLeafPerFlag, hf, decodeI]
  | .temphasis c =>
      intro f below out hf
      rw [tiEvents]
      simp only [List.foldl_append, List.foldl_cons, List.foldl_nil]
      rw [show parseStep ⟨f :: below, out⟩ (.start .emphasis)
          = ⟨⟨.emphasis, [], [], true⟩ :: f :: below, out⟩ from rfl]
      rw [tparse_inlines c ⟨.emphasis, [], [], true⟩ (f :: below) out rfl]
      simp [parseStep, endFrameNode, placeEnd, hf, decodeI]
  | .tstrong c =>
      intro f below out hf
      rw [tiEvents]
      simp only [List.foldl_append, List.foldl_cons, List.foldl_nil]
      rw [show parseStep ⟨f :: below, out⟩ (.start .strong)
          = ⟨⟨.strong, [], [], true⟩ :: f :: below, out⟩ from rfl]
      rw [tparse_inlines c ⟨.strong, [], [], true⟩ (f :: below) out rfl]
      simp [parseStep, endFrameNode, placeEnd, hf, decodeI]
  | .tlink lt d t id c =>
      intro f below out hf
      rw [tiEvents]
      simp only [List.foldl_append, List.foldl_cons, List.foldl_nil]
      rw [show parseStep ⟨f :: below, out⟩ (.start (.link lt d t id))
          = ⟨⟨.link lt d t id, [], [], true⟩ :: f :: below, out⟩ from rfl]
      rw [tparse_inlines c ⟨.link lt d t id, [], [], true⟩ (f :: below) out rfl]
      simp [parseStep, endFrameNode, placeEnd, hf, decodeI]
  | .timage lt d t id c =>
      intro f below out hf
      rw [tiEvents]
      simp only [List.foldl_append, List.foldl_cons, List.foldl_nil]
      rw [show parseStep ⟨f :: below, out⟩ (.start (.image lt d t id))
          = ⟨⟨.image lt d t id, [], [], true⟩ :: f :: below, out⟩ from rfl]
      rw [tparse_inlines c ⟨.image lt d t id, [], [], true⟩ (f :: below) out rfl]
      simp [parseStep, endFrameNode, placeEnd, hf, decodeI]

theorem tparse_inlines (c : TInlines) :
    ∀ (f : Frame) (below : List Frame) (out : List Block), f.collect_inlines = true →
      (tisEvents c).foldl parseStep ⟨f :: below, out⟩
        = ⟨{ f with inlines := f.inlines ++ decodeLI c } :: below, out⟩ := by
  match c with
  | .nil =>
      intro f below out hf
      rw [tisEvents, List.foldl_nil]
      simp [decodeLI]
  | .cons i rest =>
      intro f below out hf
      rw [tisEvents, List.foldl_append]
      rw [tparse_inline i f below out hf]
      rw [tparse_inlines rest { f with inlines := f.inlines ++ [decodeI i] } below out hf]
      simp [decodeLI]

theorem tparse_block (b : TBlock) :
    ∀ (fs : List Frame) (out : List Block), stackOK fs = true →
      (tbEvents b).foldl parseStep ⟨fs, out⟩ = appendBlocksDest fs out [decodeB b] := by
  match b with
  | .tparagraph c =>
      intro fs out hOK
      rw [tbEvents]
      simp only [List.foldl_append, List.foldl_cons, List.foldl_nil]
      rw [show parseStep ⟨fs, out⟩ (.start .paragraph)
          = ⟨⟨.paragraph, [], [], true⟩ :: fs, out⟩ from rfl]
      rw [tparse_inlines c ⟨.paragraph, [], [], true⟩ fs out rfl]
      cases fs with
      | nil => simp [parseStep, endFrameNode, placeEnd, appendBlocksDest, decodeB]
      | cons parent below =>
          have hpc : parent.collect_inlines = false := by simpa [stackOK] using hOK
          simp [parseStep, endFrameNode, placeEnd, appendBlocksDest, hpc, decodeB]
  | .theading lv id c =>
      intro fs out hOK
      rw [tbEvents]
      simp only [List.foldl_append, List.foldl_cons, List.foldl_nil]
      rw [show parseStep ⟨fs, out⟩ (.start (.heading lv id [] []))
          = ⟨⟨.heading lv id [] [], [], [], true⟩ :: fs, out⟩ from rfl]
      rw [tparse_inlines c ⟨.heading lv id [] [], [], [], true⟩ fs out rfl]
      cases fs with
      | nil => simp [parseStep, endFrameNode, placeEnd, appendBlocksDest, decodeB]
      | cons parent below =>
          have hpc : parent.collect_inlines = false := by simpa [stackOK] using hOK
          simp [parseStep, endFrameNode, placeEnd, appendBlocksDest, hpc, decodeB]
  | .tblockquote c =>
      intro fs out hOK
      rw [tbEvents]
      simp only [List.foldl_append, List.foldl_cons, List.foldl_nil]
      rw [show parseStep ⟨fs, out⟩ (.start (.blockQuote none))
          = ⟨⟨.blockQuote none, [], [], false⟩ :: fs, out⟩ from rfl]
      rw [tparse_blocks c (⟨.blockQuote none, [], [], false⟩ :: fs) out rfl]
      rw [show appendBlocksDest (⟨.blockQuote none, [], [], false⟩ :: fs) out (decodeLB c)
          = ⟨⟨.blockQuote none, [], [] ++ decodeLB c, false⟩ :: fs, out⟩ from rfl]
      cases fs with
      | nil => simp [parseStep, endFrameNode, placeEnd, appendBlocksDest, decodeB]
      | cons parent below =>
          have hpc : parent.collect_inlines = false := by simpa [stackOK] using hOK
          simp [parseStep, endFrameNode, placeEnd, appendBlocksDest, hpc, decodeB]
  | .tcodeblock kind ls =>
      intro fs out hOK
      rw [tbEvents]
      simp only [List.foldl_append, List.foldl_cons, List.foldl_nil]
      rw [show parseStep ⟨fs, out⟩ (.start (.codeBlock kind))
          = ⟨⟨.codeBlock kind, [], [], false⟩ :: fs, out⟩ from rfl]
      rw [tcode_lines_fold ls ⟨.codeBlock kind, [], [], false⟩ fs out rfl]
      cases fs with
      | nil =>
          simp [parseStep, endFrameNode, placeEnd, appendBlocksDest, decodeB,
            codeBlockText_lines]
      | cons parent below =>
          have hpc : parent.collect_inlines = false := by simpa [stackOK] using hOK
          simp [parseStep, endFrameNode, placeEnd, appendBlocksDest, hpc, decodeB,
            codeBlockText_lines]
  | .tlist start items =>
      intro fs out hOK
      rw [tbEvents]
      simp only [List.foldl_append, List.foldl_cons, List.foldl_nil]
      rw [show parseStep ⟨fs, out⟩ (.start (.list start))
          = ⟨⟨.list start, [], [], false⟩ :: fs, out⟩ from rfl]
      rw [tparse_items items ⟨.list start, [], [], false⟩ fs out rfl]
      cases fs with
      | nil =>
          simp [parseStep, endFrameNode, placeEnd, appendBlocksDest, decodeB,
            listItems_map_item]
      | cons parent below =>
          have hpc : parent.collect_inlines = false := by simpa [stackOK] using hOK
          simp [parseStep, endFrameNode, placeEnd, appendBlocksDest, hpc, decodeB,
            listItems_map_item]
  | .trule =>
      intro fs out hOK
      rw [tbEvents, List.foldl_cons, List.foldl_nil]
      cases fs with
      | nil => simp [parseStep, appendBlocksDest, decodeB]
      | cons parent below =>
          have hpc : parent.collect_inlines = false := by simpa [stackOK] using hOK
          simp [parseStep, appendBlocksDest, hpc, decodeB]
  | .tfootnotedef label c =>
      intro fs out hOK
      rw [tbEvents]
      simp only [List.foldl_append, List.foldl_cons, List.foldl_nil]
      rw [show parseStep ⟨fs, out⟩ (.start (.footnoteDefinition label))
          = ⟨⟨.footnoteDefinition label, [], [], false⟩ :: fs, out⟩ from rfl]
      rw [tparse_blocks c (⟨.footnoteDefinition label, [], [], false⟩ :: fs) out rfl]
      rw [show appendBlocksDest (⟨.footnoteDefinition label, [], [], false⟩ :: fs) out
            (decodeLB c)
          = ⟨⟨.footnoteDefinition label, [], [] ++ decodeLB c, false⟩ :: fs, out⟩ from rfl]
      cases fs with
      | nil => simp [parseStep, endFrameNode, placeEnd, appendBlocksDest, decodeB]
      | cons parent below =>
          have hpc : parent.collect_inlines = false := by simpa [stackOK] using hOK
          simp [parseStep, endFrameNode, placeEnd, appendBlocksDest, hpc, decodeB]

theorem tparse_blocks (d : TBlocks) :
    ∀ (fs : List Frame) (out : List Block), stackOK fs = true →
      (tbsEvents d).foldl parseStep ⟨fs, out⟩ = appendBlocksDest fs out (decodeLB d) := by
  match d with
  | .nil =>
      intro fs out hOK
      rw [tbsEvents, List.foldl_nil]
      cases fs with
      | nil => simp [appendBlocksDest, decodeLB]
      | cons top below => simp [appendBlocksDest, decodeLB]
  | .cons b rest =>
      intro fs out hOK
      rw [tbsEvents, List.foldl_append]
      rw [tparse_block b fs out hOK]
      cases fs with
      | nil =>
          rw [show appendBlocksDest [] out [decodeB b] = ⟨[], out ++ [decodeB b]⟩ from rfl]
          rw [tparse_blocks rest [] (out ++ [decodeB b]) rfl]
          simp [appendBlocksDest, decodeLB]
      | cons top below =>
          rw [show appendBlocksDest (top :: below) out [decodeB b]
              = ⟨{ top with blocks := top.blocks ++ [decodeB b] } :: below, out⟩ from rfl]
          rw [tparse_blocks rest ({ top with blocks := top.blocks ++ [decodeB b] } :: below)
            out (by simpa [stackOK] using hOK)]
          simp [appendBlocksDest, decodeLB]

theorem tparse_items (its : TItems) :
    ∀ (f : Frame) (below : List Frame) (out : List Block), f.collect_inlines = false →
      (titemsEvents its).foldl parseStep ⟨f :: below, out⟩
        = ⟨{ f with blocks := f.blocks ++ (decodeItems its).map Block.item } :: below, out⟩ := by
  match its with
  | .nil =>
      intro f below out hf
      rw [titemsEvents, List.foldl_nil]
      simp [decodeItems]
  | .cons item rest =>
      intro f below out hf
      rw [titemsEvents]
      simp only [List.foldl_append, List.foldl_cons, List.foldl_nil]
      rw [show parseStep ⟨f :: below, out⟩ (.start .item)
          = ⟨⟨.item, [], [], false⟩ :: f :: below, out⟩ from rfl]
      rw [tparse_blocks item (⟨.item, [], [], false⟩ :: f :: below) out rfl]
      rw [show appendBlocksDest (⟨.item, [], [], false⟩ :: f :: below) out (decodeLB item)
          = ⟨⟨.item, [], [] ++ decodeLB item, false⟩ :: f :: below, out⟩ from rfl]
      rw [show parseStep ⟨⟨.item, [], [] ++ decodeLB item, false⟩ :: f :: below, out⟩
            (.endTag .item)
          = ⟨{ f with blocks := f.blocks ++ [.item (decodeLB item)] } :: below, out⟩ from
        by simp [parseStep, endFrameNode, placeEnd, hf]]
      rw [tparse_items rest { f with blocks := f.blocks ++ [.item (decodeLB item)] }
        below out hf]
      simp [decodeItems]

end

theorem tparse_root (d : TBlocks) :
    parse_events_to_blocks (tbsEvents d) = decodeLB d := by
  rw [parse_events_to_blocks, tparse_blocks d [] [] rfl]
  rfl

theorem normAppendText_nontext (pre : List Event) (t : Tag) (txt : Str) :
    normAppendText (pre ++ [Event.start t]) txt
      = (pre ++ [Event.start t]) ++ [Event.text txt] := by
  rw [normAppendText, List.getLast?_concat]

mutual

theorem tnorm_block (b : TBlock) (h : tbValid b = true) :
    ∀ (out : List Event),
      (block_to_events (decodeB b)).foldl normStep (false, out)
        = (tbEvents b).foldl normStep (false, out)
      ∧ ∃ out2, (tbEvents b).foldl normStep (false, out) = (false, out2) := by
  match b with
  | .tparagraph c =>
      intro out
      rw [tbValid] at h
      constructor
      · rw [decodeB, block_to_events, tinlines_events_eq c h, tbEvents]
      · exact normFold_noCB_exists _ out (by rw [tbEvents]; simp [noCB, tis_noCB c])
  | .theading lv id c =>
      intro out
      rw [tbValid] at h
      constructor
      · rw [decodeB, block_to_events, tinlines_events_eq c h, tbEvents]
      · exact normFold_noCB_exists _ out (by rw [tbEvents]; simp [noCB, tis_noCB c])
  | .tblockquote c =>
      intro out
      rw [tbValid] at h
      obtain ⟨heq, out2, hout⟩ := tnorm_blocks c h (out ++ [Event.start (Tag.blockQuote none)])
      constructor
      · rw [decodeB, block_to_events, tbEvents]
        simp only [List.foldl_append, List.foldl_cons, List.foldl_nil]
        rw [show normStep (false, out) (.start (.blockQuote none))
            = (false, out ++ [Event.start (Tag.blockQuote none)]) from rfl]
        rw [heq]
      · rw [tbEvents]
        simp only [List.foldl_append, List.foldl_cons, List.foldl_nil]
        rw [show normStep (false, out) (.start (.blockQuote none))
            = (false, out ++ [Event.start (Tag.blockQuote none)]) from rfl]
        rw [hout]
        exact ⟨out2 ++ [Event.endTag (TagEnd.blockQuote none)], rfl⟩
  | .tcodeblock kind ls =>
      intro out
      rw [tbValid] at h
      cases ls with
      | nil => exact Bool.noConfusion h
      | cons l rest =>
          have hall : (l :: rest).all tlineOK = true := by
            rw [tcodeOK, Bool.and_eq_true] at h
            exact h.2
          have hl : tlineOK l = true := by
            rw [List.all_cons, Bool.and_eq_true] at hall
            exact hall.1
          have hrest : rest.all tlineOK = true := by
            rw [List.all_cons, Bool.and_eq_true] at hall
            exact hall.2
          have htok : (tbEvents (.tcodeblock kind (l :: rest))).foldl normStep (false, out)
              = (false, (out ++ [Event.start (Tag.codeBlock kind)])
                  ++ [Event.text (codeLinesText (l :: rest))]
                  ++ [Event.endTag TagEnd.codeBlock]) := by
            rw [tbEvents]
            simp only [List.foldl_append, List.foldl_cons, List.foldl_nil, List.map_cons]
            rw [show normStep (false, out) (.start (.codeBlock kind))
                = (true, out ++ [Event.start (Tag.codeBlock kind)]) from rfl]
            rw [show normStep (true, out ++ [Event.start (Tag.codeBlock kind)])
                  (.text (l ++ ['\n']))
                = (true, normAppendText (out ++ [Event.start (Tag.codeBlock kind)])
                    (collapseBlank (l ++ ['\n']))) from rfl]
            rw [collapseBlank_line l hl, normAppendText_nontext]
            rw [norm_code_lines rest _ _ hrest]
            rw [codeLinesText_cons]
            rfl
          constructor
          · rw [decodeB, block_to_events, Region.apply_from_str]
            simp only [List.foldl_cons, List.foldl_nil]
            rw [show normStep (false, out) (.start (.codeBlock kind))
                = (true, out ++ [Event.start (Tag.codeBlock kind)]) from rfl]
            rw [show normStep (true, out ++ [Event.start (Tag.codeBlock kind)])
                  (.text (codeLinesText (l :: rest)))
                = (true, normAppendText (out ++ [Event.start (Tag.codeBlock kind)])
                    (collapseBlank (codeLinesText (l :: rest)))) from rfl]
            rw [collapseBlank_codeLines l rest hall, normAppendText_nontext]
            rw [htok]
            rfl
          · exact ⟨_, htok⟩
  | .tlist start items =>
      intro out
      rw [tbValid] at h
      obtain ⟨heq, out2, hout⟩ := tnorm_items items h (out ++ [Event.start (Tag.list start)])
      constructor
      · rw [decodeB, block_to_events, tbEvents]
        simp only [List.foldl_append, List.foldl_cons, List.foldl_nil]
        rw [show normStep (false, out) (.start (.list start))
            = (false, out ++ [Event.start (Tag.list start)]) from rfl]
        rw [heq]
      · rw [tbEvents]
        simp only [List.foldl_append, List.foldl_cons, List.foldl_nil]
        rw [show normStep (false, out) (.start (.list start))
            = (false, out ++ [Event.start (Tag.list start)]) from rfl]
        rw [hout]
        exact ⟨out2 ++ [Event.endTag (TagEnd.list start.isSome)], rfl⟩
  | .trule =>
      intro out
      exact ⟨rfl, out ++ [Event.rule], rfl⟩
  | .tfootnotedef label c =>
      intro out
      rw [tbValid] at h
      obtain ⟨heq, out2, hout⟩ := tnorm_blocks c h
        (out ++ [Event.start (Tag.footnoteDefinition label)])
      constructor
      · rw [decodeB, block_to_events, tbEvents]
        simp only [List.foldl_append, List.foldl_cons, List.foldl_nil]
        rw [show normStep (false, out) (.start (.footnoteDefinition label))
            = (false, out ++ [Event.start (Tag.footnoteDefinition label)]) from rfl]
        rw [heq]
      · rw [tbEvents]
        simp only [List.foldl_append, List.foldl_cons, List.foldl_nil]
        rw [show normStep (false, out) (.start (.footnoteDefinition label))
            = (false, out ++ [Event.start (Tag.footnoteDefinition label)]) from rfl]
        rw [hout]
        exact ⟨out2 ++ [Event.endTag TagEnd.footnoteDefinition], rfl⟩

theorem tnorm_blocks (d : TBlocks) (h : tbsValid d = true) :
    ∀ (out : List Event),
      (blocks_to_events (decodeLB d)).foldl normStep (false, out)
        = (tbsEvents d).foldl normStep (false, out)
      ∧ ∃ out2, (tbsEvents d).foldl normStep (false, out) = (false, out2) := by
  match d with
  | .nil =>
      intro out
      exact ⟨rfl, out, rfl⟩
  | .cons b rest =>
      intro out
      rw [tbsValid, Bool.and_eq_true] at h
      obtain ⟨heqb, ob, hob⟩ := tnorm_block b h.1 out
      obtain ⟨heqr, onr, hor⟩ := tnorm_blocks rest h.2 ob
      constructor
      · rw [decodeLB, blocks_to_events, tbsEvents]
        simp only [List.foldl_append]
        rw [heqb, hob, heqr]
      · rw [tbsEvents]
        simp only [List.foldl_append]
        rw [hob]
        exact ⟨onr, hor⟩

theorem tnorm_items (its : TItems) (h : titemsValid its = true) :
    ∀ (out : List Event),
      (items_to_events (decodeItems its)).foldl normStep (false, out)
        = (titemsEvents its).foldl normStep (false, out)
      ∧ ∃ out2, (titemsEvents its).foldl normStep (false, out) = (false, out2) := by
  match its with
  | .nil =>
      intro out
      exact ⟨rfl, out, rfl⟩
  | .cons item rest =>
      intro out
      rw [titemsValid, Bool.and_eq_true] at h
      obtain ⟨heqb, ob, hob⟩ := tnorm_blocks item h.1 (out ++ [Event.start Tag.item])
      obtain ⟨heqr, onr, hor⟩ := tnorm_items rest h.2 (ob ++ [Event.endTag TagEnd.item])
      constructor
      · rw [decodeItems, items_to_events, titemsEvents]
        simp only [List.foldl_append, List.foldl_cons, List.foldl_nil]
        rw [show normStep (false, out) (.start .item)
            = (false, out ++ [Event.start Tag.item]) from rfl]
        rw [heqb, hob]
        rw [show normStep (false, ob) (.endTag .item)
            = (false, ob ++ [Event.endTag TagEnd.item]) from rfl]
        rw [heqr]
      · rw [titemsEvents]
        simp only [List.foldl_append, List.foldl_cons, List.foldl_nil]
        rw [show normStep (false, out) (.start .item)
            = (false, out ++ [Event.start Tag.item]) from rfl]
        rw [hob]
        rw [show normStep (false, ob) (.endTag .item)
            = (false, ob ++ [Event.endTag TagEnd.item]) from rfl]
        exact ⟨onr, hor⟩

end

/-- C1 (counterexample): the round trip is not canonical-sequence-preserving
on every tokenizer sequence.  The balanced event sequence of a one-column
table (exactly what pulldown-cmark emits for a valid Markdown table)
reconstructs to a `TableFull` node, which `block_to_events` re-emits as the
empty sequence, so the two canonical sequences differ. -/
theorem C1_counterexample :
    balancedEvents
        [Event.start (Tag.table [Alignment.left]), Event.start Tag.tableHead,
         Event.start Tag.tableCell, Event.text (str "A"), Event.endTag TagEnd.tableCell,
         Event.endTag TagEnd.tableHead, Event.start Tag.tableRow,
         Event.start Tag.tableCell, Event.text (str "1"), Event.endTag TagEnd.tableCell,
         Event.endTag TagEnd.tableRow, Event.endTag TagEnd.table] = true ∧
    canon (blocks_to_events (parse_events_to_blocks
        [Event.start (Tag.table [Alignment.left]), Event.start Tag.tableHead,
         Event.start Tag.tableCell, Event.text (str "A"), Event.endTag TagEnd.tableCell,
         Event.endTag TagEnd.tableHead, Event.start Tag.tableRow,
         Event.start Tag.tableCell, Event.text (str "1"), Event.endTag TagEnd.tableCell,
         Event.endTag TagEnd.tableRow, Event.endTag TagEnd.table]))
      ≠ canon
        [Event.start (Tag.table [Alignment.left]), Event.start Tag.tableHead,
         Event.start Tag.tableCell, Event.text (str "A"), Event.endTag TagEnd.tableCell,
         Event.endTag TagEnd.tableHead, Event.start Tag.tableRow,
         Event.start Tag.tableCell, Event.text (str "1"), Event.endTag TagEnd.tableCell,
         Event.endTag TagEnd.tableRow, Event.endTag TagEnd.table] := by
  constructor
  · decide
  · decide

/-- C1 (amended): event-level round trip on the modelled tokenizer output.
For every sequence of the tokenizer model `TBlocks` (paragraphs and
headings of inline runs, emphasis/strong/link/image spans, blockquotes,
loose lists, rules, footnote definitions, and code blocks emitted line by
line) that is valid (inline text single-line, code lines non-blank and
newline-free, at least one code line), re-emitting events from the
reconstructed tree and canonicalizing both sequences — merging adjacent
`Text` runs, collapsing redundant blank lines inside code blocks, ignoring
`Paragraph` boundary markers — yields equal canonical sequences.  The
universal form over all tokenizer sequences is refuted by
`C1_counterexample` (table events are dropped on re-emission). -/
theorem C1_event_roundtrip (d : TBlocks) (h : tbsValid d = true) :
    canon (blocks_to_events (parse_events_to_blocks (tbsEvents d)))
      = canon (tbsEvents d) := by
  rw [tparse_root]
  obtain ⟨heq, -⟩ := tnorm_blocks d h []
  simp only [canon, normalize_events]
  rw [heq]

/-- C1 witness: a concrete two-block document (paragraph plus fenced code
block of two lines) round-trips to the same canonical sequence. -/
theorem C1_event_roundtrip_witness :
    tbsValid (TBlocks.cons (.tparagraph (.cons (.ttext (str "hi")) .nil))
        (.cons (.tcodeblock (.fenced (str "hs")) [str "a", str "b"]) .nil)) = true ∧
    canon (blocks_to_events (parse_events_to_blocks (tbsEvents
        (TBlocks.cons (.tparagraph (.cons (.ttext (str "hi")) .nil))
          (.cons (.tcodeblock (.fenced (str "hs")) [str "a", str "b"]) .nil)))))
      = canon (tbsEvents (TBlocks.cons (.tparagraph (.cons (.ttext (str "hi")) .nil))
          (.cons (.tcodeblock (.fenced (str "hs")) [str "a", str "b"]) .nil))) :=
  ⟨by decide, C1_event_roundtrip _ (by decide)⟩

end PCW
